import Mathlib

/-!
# Verification of the ucf-spots course-schedule ETL pipeline

Shallow embedding of the pure transformation/validation layer of the
pipeline (`src/pipeline/`): the subject-to-buildings fold, the building
filter, building-hours parsing and 12-hour clock conversion, the
relational loader's flattening, count verification, term validation and
chunked bulk insertion, and the scraper's day-string parser.

Python strings are modelled as `List Char`; Python dicts (which preserve
insertion order) are modelled as association lists; raised exceptions are
modelled with `Except`.
-/

/-- Python strings, modelled as lists of characters. -/
abbrev Str : Type := List Char

/-- Conversion of a Lean string literal to the `Str` model. -/
def strOf (s : String) : Str := s.toList

/-- A class meeting time, `{"start": "HH:MM", "end": "HH:MM"}`
(`scraper.py`, `TimeSlot`). -/
structure TimeSlot where
  start : Str
  «end» : Str
deriving DecidableEq, Repr

/-- A resolved class location, `{"building": ..., "room": ...}`
(`scraper.py`, `Location`). -/
structure Location where
  building : Str
  room : Str
deriving DecidableEq, Repr

/-- One section of a course in the subject-indexed document
(`scraper.py`): location and time may be unresolved (JSON `null`). -/
structure SectionRec where
  location : Option Location
  time : Option TimeSlot
  days : List Char
  start_date : Str
  end_date : Str
deriving DecidableEq, Repr

/-- A course in the subject-indexed document. -/
structure Course where
  number : Str
  title : Str
  sections : List SectionRec
deriving DecidableEq, Repr

/-- A subject in the subject-indexed document. -/
structure Subject where
  code : Str
  courses : List Course
deriving DecidableEq, Repr

/-- A class meeting entry in a room's list, as built by
`subject_to_buildings.py` (`section_info`): the `time` field is copied
from the section and may be `null`. -/
structure BMeeting where
  course : Str
  title : Str
  time : Option TimeSlot
  days : List Char
  start_date : Str
  end_date : Str
deriving DecidableEq, Repr

/-- Per-building data in the building-derived document:
`{"rooms": {room -> [meeting, ...]}, "total_sections": n}`. -/
structure BuildingData where
  rooms : List (Str × List BMeeting)
  total_sections : Nat
deriving DecidableEq, Repr

/-! ## `subject_to_buildings.py`: `process_to_buildings` -/

/-- Append a meeting to `rooms[room]`, initializing the room's list if
absent (insertion order preserved, as for a Python dict). -/
def addToRoom (room : Str) (m : BMeeting) : List (Str × List BMeeting) →
    List (Str × List BMeeting)
  | [] => [(room, [m])]
  | (r, ms) :: rest =>
    if r = room then (r, ms ++ [m]) :: rest
    else (r, ms) :: addToRoom room m rest

/-- Append a meeting to `buildings[building].rooms[room]` and increment
that building's `total_sections`, initializing the building entry
(`{"rooms": {}, "total_sections": 0}`) if absent. -/
def addMeeting (building room : Str) (m : BMeeting) :
    List (Str × BuildingData) → List (Str × BuildingData)
  | [] => [(building, ⟨[(room, [m])], 1⟩)]
  | (b, d) :: rest =>
    if b = building then
      (b, ⟨addToRoom room m d.rooms, d.total_sections + 1⟩) :: rest
    else (b, d) :: addMeeting building room m rest

/-- One step of the fold in `process_to_buildings`: a section with no
location, or with an empty building or room code, is skipped; otherwise
its meeting is appended to the building document. -/
def processSection (c : Course) (bs : List (Str × BuildingData))
    (sec : SectionRec) : List (Str × BuildingData) :=
  match sec.location with
  | none => bs
  | some loc =>
    if loc.building = [] ∨ loc.room = [] then bs
    else
      addMeeting loc.building loc.room
        { course := c.number, title := c.title, time := sec.time,
          days := sec.days, start_date := sec.start_date,
          end_date := sec.end_date } bs

/-- Embeds `SubjectToBuildingsProcessor.process_to_buildings`, restricted to the
`"buildings"` value of the document it returns (the surrounding
`last_updated`/`term` metadata fields are not modelled: `last_updated`
is a wall-clock timestamp). -/
def process_to_buildings (subjects : List Subject) :
    List (Str × BuildingData) :=
  subjects.foldl (fun bs subj =>
    subj.courses.foldl (fun bs course =>
      course.sections.foldl (fun bs sec => processSection course bs sec) bs)
      bs) []

/-! ## `filter_buildings.py`: `BuildingDataFilter.filter_buildings` -/

/-- A building-derived document as consumed by the filter stage. -/
structure BuildingDoc where
  last_updated : Str
  term : Str
  buildings : List (Str × BuildingData)
deriving DecidableEq, Repr

/-- The exclusion set `BuildingDataFilter.excluded_buildings`. -/
def excluded_buildings : List Str := [strOf "DPAC", strOf "RSH", strOf "CROL"]

/-- The threshold `BuildingDataFilter.min_rooms` (minimum room count, inclusive). -/
def min_rooms : Nat := 4

/-- Embeds `BuildingDataFilter.filter_buildings`: keep a building iff its room
count is at least `min_rooms` and its code is not excluded; the
`last_updated` and `term` fields and each retained building's data are
copied through unchanged. -/
def filter_buildings (d : BuildingDoc) : BuildingDoc :=
  { last_updated := d.last_updated
    term := d.term
    buildings := d.buildings.filter (fun p =>
      decide (min_rooms ≤ p.2.rooms.length) && !(decide (p.1 ∈ excluded_buildings))) }

/-! ## `load_to_postgres.py`: the relational loader

The enriched document the loader consumes (its `"buildings"` value, a
dict from building name to building data). The structural constraints
`validate_json_structure` checks — the seven hour keys, `coordinates`
and `rooms` present, room values lists, class entries carrying
`{course, title, time, days, start_date, end_date}` — are enforced here
by the types of the embedding, so a well-typed document is exactly one
on which `validate_json_structure` succeeds. -/

/-- One day's hours, `{"open": ..., "close": ...}` (both nullable). -/
structure DayHours where
  open_time : Option Str
  close_time : Option Str
deriving DecidableEq, Repr

/-- The seven-day hours map of an enriched building. -/
structure WeekHours where
  monday : DayHours
  tuesday : DayHours
  wednesday : DayHours
  thursday : DayHours
  friday : DayHours
  saturday : DayHours
  sunday : DayHours
deriving DecidableEq, Repr

/-- Building coordinates, `{"latitude": ..., "longitude": ...}`. The
numeric values are only carried through, never computed with, so they
are modelled opaquely as integers. -/
structure Coordinates where
  latitude : Int
  longitude : Int
deriving DecidableEq, Repr

/-- A class entry (`class_info`) of the enriched document. Its `time`
value is a `{"start", "end"}` record, which the loader indexes into. -/
structure EMeeting where
  course : Str
  title : Str
  time : TimeSlot
  days : List Char
  start_date : Str
  end_date : Str
deriving DecidableEq, Repr

/-- An enriched building: coordinates, seven-day hours, and rooms. -/
structure EnrichedBuilding where
  coordinates : Coordinates
  hours : WeekHours
  rooms : List (Str × List EMeeting)
deriving DecidableEq, Repr

/-- A database `buildings` row (name, lat/lon, 14 hour columns). -/
structure BuildingRow where
  name : Str
  latitude : Int
  longitude : Int
  monday_open : Option Str
  monday_close : Option Str
  tuesday_open : Option Str
  tuesday_close : Option Str
  wednesday_open : Option Str
  wednesday_close : Option Str
  thursday_open : Option Str
  thursday_close : Option Str
  friday_open : Option Str
  friday_close : Option Str
  saturday_open : Option Str
  saturday_close : Option Str
  sunday_open : Option Str
  sunday_close : Option Str
deriving DecidableEq, Repr

/-- A database `rooms` row. -/
structure RoomRow where
  building_name : Str
  room_number : Str
deriving DecidableEq, Repr

/-- A database `class_schedule` row: one row per (room, class, weekday). -/
structure ScheduleRow where
  building_name : Str
  room_number : Str
  course_code : Str
  course_title : Str
  start_time : Str
  end_time : Str
  day_of_week : Char
  start_date : Str
  end_date : Str
deriving DecidableEq, Repr

/-- The building record built at the top of the per-building loop of
`prepare_and_validate_data`. -/
def mkBuildingRow (name : Str) (b : EnrichedBuilding) : BuildingRow :=
  { name := name
    latitude := b.coordinates.latitude
    longitude := b.coordinates.longitude
    monday_open := b.hours.monday.open_time
    monday_close := b.hours.monday.close_time
    tuesday_open := b.hours.tuesday.open_time
    tuesday_close := b.hours.tuesday.close_time
    wednesday_open := b.hours.wednesday.open_time
    wednesday_close := b.hours.wednesday.close_time
    thursday_open := b.hours.thursday.open_time
    thursday_close := b.hours.thursday.close_time
    friday_open := b.hours.friday.open_time
    friday_close := b.hours.friday.close_time
    saturday_open := b.hours.saturday.open_time
    saturday_close := b.hours.saturday.close_time
    sunday_open := b.hours.sunday.open_time
    sunday_close := b.hours.sunday.close_time }

/-- The schedule entry appended for each day a class meets. -/
def mkScheduleRow (building room : Str) (ci : EMeeting) (day : Char) :
    ScheduleRow :=
  { building_name := building
    room_number := room
    course_code := ci.course
    course_title := ci.title
    start_time := ci.time.start
    end_time := ci.time.«end»
    day_of_week := day
    start_date := ci.start_date
    end_date := ci.end_date }

/-- The inner loop of `prepare_and_validate_data` over one building's
rooms, threading the `room_keys` set: a room whose `(building, room)`
key was already seen raises `DataValidationError`; otherwise the room
row and one schedule row per class per day are emitted. -/
def processRooms (name : Str) :
    List (Str × List EMeeting) → List (Str × Str) →
      Except Str (List (Str × Str) × List RoomRow × List ScheduleRow)
  | [], keys => .ok (keys, [], [])
  | (rn, classes) :: rest, keys =>
    if (name, rn) ∈ keys then
      .error (strOf "Duplicate room found: " ++ rn ++ strOf " in " ++ name)
    else
      match processRooms name rest ((name, rn) :: keys) with
      | .error e => .error e
      | .ok (keys2, rrows, srows) =>
        .ok (keys2, ⟨name, rn⟩ :: rrows,
          classes.flatMap (fun ci => ci.days.map (mkScheduleRow name rn ci)) ++
            srows)

/-- The outer loop of `prepare_and_validate_data` over buildings,
threading the `room_keys` set across buildings. -/
def prepareGo :
    List (Str × EnrichedBuilding) → List (Str × Str) →
      Except Str (List BuildingRow × List RoomRow × List ScheduleRow)
  | [], _ => .ok ([], [], [])
  | (name, b) :: rest, keys =>
    match processRooms name b.rooms keys with
    | .error e => .error e
    | .ok (keys2, rrows, srows) =>
      match prepareGo rest keys2 with
      | .error e => .error e
      | .ok (brows, rrows2, srows2) =>
        .ok (mkBuildingRow name b :: brows, rrows ++ rrows2, srows ++ srows2)

/-- Embeds `prepare_and_validate_data`: flatten the enriched document into
building, room and schedule rows, raising on a duplicate
`(building, room)` key (`room_keys` starts empty). -/
def prepare_and_validate_data (doc : List (Str × EnrichedBuilding)) :
    Except Str (List BuildingRow × List RoomRow × List ScheduleRow) :=
  prepareGo doc []

/-- Embeds `verify_data_counts`: recompute the expected row counts from the
source document and compare them with the flattened lists, raising on
any mismatch. -/
def verify_data_counts (doc : List (Str × EnrichedBuilding))
    (buildings : List BuildingRow) (rooms : List RoomRow)
    (schedules : List ScheduleRow) : Except Str Unit :=
  let expected_buildings := doc.length
  let expected_rooms := (doc.map (fun b => b.2.rooms.length)).sum
  let expected_schedules := (doc.map (fun b =>
    (b.2.rooms.map (fun r => (r.2.map (fun ci => ci.days.length)).sum)).sum)).sum
  if buildings.length ≠ expected_buildings then
    .error (strOf "Building count mismatch")
  else if rooms.length ≠ expected_rooms then
    .error (strOf "Room count mismatch")
  else if schedules.length ≠ expected_schedules then
    .error (strOf "Schedule count mismatch")
  else .ok ()

/-- All `(building, room)` keys of an enriched document, in order. -/
def roomKeysOf (doc : List (Str × EnrichedBuilding)) : List (Str × Str) :=
  doc.flatMap (fun b => b.2.rooms.map (fun r => (b.1, r.1)))

/-- Specification-side description of the flattened schedule rows: for
every building, room and class entry, one row per weekday code in the
class's `days` list, in document order. -/
def spec_schedule_rows (doc : List (Str × EnrichedBuilding)) :
    List ScheduleRow :=
  doc.flatMap (fun b => b.2.rooms.flatMap (fun r =>
    r.2.flatMap (fun ci => ci.days.map (mkScheduleRow b.1 r.1 ci))))

/-- A small enriched document: building `BA1` with one room holding a
two-day class and a one-day class. -/
def egEM1 : EMeeting :=
  { course := strOf "ACG 2021"
    title := strOf "Principles of Financial Accounting"
    time := ⟨strOf "07:30", strOf "08:50"⟩
    days := ['M', 'W']
    start_date := strOf "2026-01-12"
    end_date := strOf "2026-05-05" }

def egEM2 : EMeeting :=
  { course := strOf "COP 3502C"
    title := strOf "Computer Science I"
    time := ⟨strOf "10:30", strOf "11:50"⟩
    days := ['T']
    start_date := strOf "2026-01-12"
    end_date := strOf "2026-05-05" }

def egDayHours : DayHours := ⟨some (strOf "07:30"), some (strOf "22:00")⟩

def egEB : EnrichedBuilding :=
  { coordinates := ⟨28, -81⟩
    hours := ⟨egDayHours, egDayHours, egDayHours, egDayHours, egDayHours,
              ⟨none, none⟩, ⟨none, none⟩⟩
    rooms := [(strOf "O107", [egEM1, egEM2])] }

def egEnrichedDoc : List (Str × EnrichedBuilding) := [(strOf "BA1", egEB)]

/-- The expected flattened rows for `egEnrichedDoc`. -/
def egBRows : List BuildingRow := [mkBuildingRow (strOf "BA1") egEB]

def egRRows : List RoomRow := [⟨strOf "BA1", strOf "O107"⟩]

def egSRows : List ScheduleRow :=
  [mkScheduleRow (strOf "BA1") (strOf "O107") egEM1 'M',
   mkScheduleRow (strOf "BA1") (strOf "O107") egEM1 'W',
   mkScheduleRow (strOf "BA1") (strOf "O107") egEM2 'T']

/-- A document with a duplicate `(building, room)` key spread across two
building entries that share the name `BA1`. -/
def egDupDoc : List (Str × EnrichedBuilding) :=
  [(strOf "BA1", egEB), (strOf "BA1", egEB)]

/-! ## `load_to_postgres.py`: `bulk_insert` -/

/-- The batch size `CHUNK_SIZE`: number of records to insert per batch. -/
def CHUNK_SIZE : Nat := 500

/-- The successive slices `records[i : i + n]` for `i = 0, n, 2n, ...`
taken by the loop of `bulk_insert`. The `n = 0` equation is never used:
the only call site passes `CHUNK_SIZE = 500` (a Python `range` with step
0 would raise). -/
def chunksOf {α : Type} : Nat → List α → List (List α)
  | _, [] => []
  | 0, a :: l => [a :: l]
  | n + 1, a :: l => (a :: l).take (n + 1) :: chunksOf (n + 1) (l.drop n)
termination_by n l => l.length
decreasing_by simp [List.length_drop]; omega

/-- Embeds `bulk_insert`, with the store's per-chunk insert/upsert call
abstracted as a success oracle `attempt` (the store is an external
collaborator). An empty record list returns 0 immediately. Otherwise
every chunk is attempted in order; a failing chunk is recorded and the
loop continues; after all chunks, if any failed, an aggregate
`DataValidationError` naming the number of failed chunks is raised
(modelled as `.error` carrying that count), else the total number of
processed records is returned. -/
def bulk_insert {α : Type} (attempt : List α → Bool) (records : List α) :
    Except Nat Nat :=
  if records.isEmpty then .ok 0
  else
    let totals := (chunksOf CHUNK_SIZE records).foldl
      (fun acc chunk =>
        if attempt chunk then (acc.1 + chunk.length, acc.2)
        else (acc.1, acc.2 + 1)) (0, 0)
    if totals.2 ≠ 0 then .error totals.2 else .ok totals.1

/-! ## `scraper.py`: `parse_days` -/

/-- Tests whether `pat` is a prefix of the second list (helper for the substring
test). -/
def startsWith : List Char → List Char → Bool
  | [], _ => true
  | _ :: _, [] => false
  | p :: ps, c :: cs => p == c && startsWith ps cs

/-- The Python substring test `pat in s`: `pat` occurs contiguously in
the second list. -/
def hasSub (pat : List Char) : List Char → Bool
  | [] => pat.isEmpty
  | c :: cs => startsWith pat (c :: cs) || hasSub pat cs

/-- The table `day_mapping` of `parse_days`, in Python-dict iteration order. -/
def day_mapping : List (Str × Char) :=
  [(strOf "Mo", 'M'), (strOf "Tu", 'T'), (strOf "We", 'W'), (strOf "Th", 'R'),
   (strOf "Fr", 'F'), (strOf "Sa", 'S'), (strOf "Su", 'U')]

/-- The fixed list of weekday codes, in `day_mapping` value order. -/
def day_codes : List Char := ['M', 'T', 'W', 'R', 'F', 'S', 'U']

/-- Embeds `parse_days`: collect the code of every 2-letter day token occurring
anywhere in the string, in table order; if none occurred, fall back to
testing the bare letters M, W, F — a letter occurrence anywhere in the
string not accompanied by its 2-letter form. -/
def parse_days (day_str : Str) : List Char :=
  let days := (day_mapping.filter (fun p => hasSub p.1 day_str)).map
    (fun p => p.2)
  if days = [] then
    (if day_str.contains 'M' && !(hasSub (strOf "Mo") day_str) then ['M']
     else []) ++
    (if day_str.contains 'W' && !(hasSub (strOf "We") day_str) then ['W']
     else []) ++
    (if day_str.contains 'F' && !(hasSub (strOf "Fr") day_str) then ['F']
     else [])
  else days

/-! ## `add_building_hours.py`: clock-time conversion

`convert_time_format` feeds trusted configuration strings to
`datetime.strptime` with the formats `%I:%M%p` and `%I%p`. `strptime`
compiles these to the regexes `1[0-2]|0[1-9]|[1-9]` for `%I`,
`[0-5]\x5cd|\x5cd` for `%M` and the case-insensitive alternation
`AM|PM` for `%p`, requiring the whole string to match; the matchers
below implement those regexes (character classes written via code
points; ordered alternation, where a longer alternative that matches is
never wrong because the following literal `:` or AM/PM letter can never
extend a digit). -/

/-- Python `str.strip()`'s whitespace test, on the ASCII repertoire this
configuration path receives. -/
def isPySpace (c : Char) : Bool :=
  c == ' ' || c == '\t' || c == '\n' || c == '\r' || c == '\x0b' || c == '\x0c'

/-- Python `str.strip()`: drop whitespace from both ends. -/
def strip (s : Str) : Str :=
  ((s.dropWhile isPySpace).reverse.dropWhile isPySpace).reverse

/-- Python `str.upper()` (ASCII). -/
def upperStr (s : Str) : Str := s.map Char.toUpper

/-- The `strptime` fragment for `%I` (and `%m`): `1[0-2]|0[1-9]|[1-9]`.
Returns the value read and the unconsumed suffix. -/
def matchHour : Str → Option (Nat × Str)
  | [] => none
  | c1 :: rest1 =>
    if c1 = '1' then
      match rest1 with
      | c2 :: rest2 =>
        if 48 ≤ c2.toNat ∧ c2.toNat ≤ 50 then
          some (10 + (c2.toNat - 48), rest2)
        else some (1, rest1)
      | [] => some (1, [])
    else if c1 = '0' then
      match rest1 with
      | c2 :: rest2 =>
        if 49 ≤ c2.toNat ∧ c2.toNat ≤ 57 then some (c2.toNat - 48, rest2)
        else none
      | [] => none
    else if 49 ≤ c1.toNat ∧ c1.toNat ≤ 57 then some (c1.toNat - 48, rest1)
    else none

/-- The `strptime` fragment for `%M`: `[0-5]\x5cd|\x5cd`. -/
def matchMin : Str → Option (Nat × Str)
  | [] => none
  | [c] => if 48 ≤ c.toNat ∧ c.toNat ≤ 57 then some (c.toNat - 48, []) else none
  | c1 :: c2 :: rest =>
    if (48 ≤ c1.toNat ∧ c1.toNat ≤ 53) ∧ (48 ≤ c2.toNat ∧ c2.toNat ≤ 57) then
      some ((c1.toNat - 48) * 10 + (c2.toNat - 48), rest)
    else if 48 ≤ c1.toNat ∧ c1.toNat ≤ 57 then some (c1.toNat - 48, c2 :: rest)
    else none

/-- The `strptime` fragment for `%p`: the case-insensitive alternation
`AM|PM`; `true` means PM. -/
def matchAmPm : Str → Option (Bool × Str)
  | c1 :: c2 :: rest =>
    if (c1 = 'A' ∨ c1 = 'a') ∧ (c2 = 'M' ∨ c2 = 'm') then some (false, rest)
    else if (c1 = 'P' ∨ c1 = 'p') ∧ (c2 = 'M' ∨ c2 = 'm') then some (true, rest)
    else none
  | _ => none

/-- Embeds `datetime.strptime(t, "%I:%M%p")` (whole-string match): hour 1-12,
minute, and the PM flag. -/
def parseColonTime (s : Str) : Option (Nat × Nat × Bool) :=
  match matchHour s with
  | none => none
  | some (h, rest) =>
    match rest with
    | c :: rest2 =>
      if c = ':' then
        match matchMin rest2 with
        | none => none
        | some (m, rest3) =>
          match matchAmPm rest3 with
          | some (pm, []) => some (h, m, pm)
          | _ => none
      else none
    | [] => none

/-- Embeds `datetime.strptime(t, "%I%p")` (whole-string match). -/
def parseNoColonTime (s : Str) : Option (Nat × Bool) :=
  match matchHour s with
  | none => none
  | some (h, rest) =>
    match matchAmPm rest with
    | some (pm, []) => some (h, pm)
    | _ => none

/-- The hour rendered by `strftime("%H")` for a `strptime`-read
12-hour time. -/
def to24Hour (h : Nat) (pm : Bool) : Nat :=
  if pm then (if h = 12 then 12 else h + 12)
  else (if h = 12 then 0 else h)

/-- The digit character for `d ≤ 9`. -/
def digitChar (d : Nat) : Char := Char.ofNat (48 + d)

/-- Zero-padded two-digit rendering (`%H`, `%M`). -/
def twoDigits (n : Nat) : Str := [digitChar (n / 10), digitChar (n % 10)]

/-- The rendering `strftime("%H:%M")`. -/
def fmtHM (h m : Nat) : Str := twoDigits h ++ ':' :: twoDigits m

/-- Embeds `BuildingHoursProcessor.convert_time_format`: `None` for exactly
`"LOCKED"` (tested before stripping); strip; `"23:59"` for the
(case-insensitive) midnight forms `12AM`/`12:00AM`; otherwise parse
with `%I:%M%p` when the string contains a colon and `%I%p` when not,
re-rendering as `%H:%M`; a parse failure raises `ValueError` (modelled
as `.error` carrying the offending string). -/
def convert_time_format (s : Str) : Except Str (Option Str) :=
  if s = strOf "LOCKED" then .ok none
  else if upperStr (strip s) = strOf "12AM" ∨ upperStr (strip s) = strOf "12:00AM" then
    .ok (some (strOf "23:59"))
  else if (strip s).contains ':' then
    match parseColonTime (strip s) with
    | some (h, m, pm) => .ok (some (fmtHM (to24Hour h pm) m))
    | none => .error (strip s)
  else
    match parseNoColonTime (strip s) with
    | some (h, pm) => .ok (some (fmtHM (to24Hour h pm) 0))
    | none => .error (strip s)

/-- Specification-side enumeration of the strings the regex
`1[0-2]|0[1-9]|[1-9]` accepts with value `h`: the bare digit for 1-9,
its zero-padded form, or the two-digit form for 10-12. -/
def specHourStrs (h : Nat) : List Str :=
  if h = 0 then []
  else if h ≤ 9 then [[digitChar h], ['0', digitChar h]]
  else if h ≤ 12 then [['1', digitChar (h - 10)]]
  else []

/-- Specification-side enumeration of the strings `[0-5]\x5cd|\x5cd`
accepts with value `m`. -/
def specMinStrs (m : Nat) : List Str :=
  if m ≤ 9 then [[digitChar m], ['0', digitChar m]]
  else if m ≤ 59 then [[digitChar (m / 10), digitChar (m % 10)]]
  else []

/-- The case variants of AM (`pm = false`) and PM (`pm = true`). -/
def specAmPmStrs (pm : Bool) : List Str :=
  if pm then [['P', 'M'], ['P', 'm'], ['p', 'M'], ['p', 'm']]
  else [['A', 'M'], ['A', 'm'], ['a', 'M'], ['a', 'm']]

/-- Specification side: all strings matching `H:MM AM/PM` (`strptime`
format `%I:%M%p`) with the given reading. -/
def specColonStrs (h m : Nat) (pm : Bool) : List Str :=
  (specHourStrs h).flatMap (fun hs =>
    (specMinStrs m).flatMap (fun ms =>
      (specAmPmStrs pm).map (fun ps => hs ++ (':' :: (ms ++ ps)))))

/-- Specification side: all strings matching `H AM/PM` (`strptime`
format `%I%p`) with the given reading. -/
def specNoColonStrs (h : Nat) (pm : Bool) : List Str :=
  (specHourStrs h).flatMap (fun hs =>
    (specAmPmStrs pm).map (fun ps => hs ++ ps))


/-! ## `add_building_hours.py`: `parse_building_hours`

The hours dict of one building (day-group token -> range string) and the
day-group table `BuildingHoursProcessor.days_mapping`; `formatted_hours`
is an insertion-ordered dict (assoc list with in-place update). -/

def days_mapping : List (Str × List Str) :=
  [(strOf "M-TH",
    [strOf "monday", strOf "tuesday", strOf "wednesday", strOf "thursday"]),
   (strOf "F", [strOf "friday"]),
   (strOf "SAT", [strOf "saturday"]),
   (strOf "SUN", [strOf "sunday"])]

def dictInsert (k : Str) (v : DayHours) :
    List (Str × DayHours) → List (Str × DayHours)
  | [] => [(k, v)]
  | (k2, v2) :: rest =>
    if k2 = k then (k, v) :: rest else (k2, v2) :: dictInsert k v rest

def rsplitHyphen : Str → Option (Str × Str)
  | [] => none
  | c :: cs =>
    match rsplitHyphen cs with
    | some (a, b) => some (c :: a, b)
    | none => if c = '-' then some ([], cs) else none

def processHoursEntry (fh : List (Str × DayHours)) (k v : Str) :
    Except Str (List (Str × DayHours)) :=
  match List.lookup k days_mapping with
  | none => .ok fh
  | some dayNames =>
    if v = strOf "LOCKED" then
      .ok (dayNames.foldl (fun fh2 d => dictInsert d ⟨none, none⟩ fh2) fh)
    else
      match rsplitHyphen v with
      | none => .ok fh
      | some (a, b) =>
        match convert_time_format (strip a) with
        | .error e => .error e
        | .ok o =>
          match convert_time_format (strip b) with
          | .error e => .error e
          | .ok c =>
            .ok (dayNames.foldl (fun fh2 d => dictInsert d ⟨o, c⟩ fh2) fh)

def parseHoursGo (fh : List (Str × DayHours)) :
    List (Str × Str) → Except Str (List (Str × DayHours))
  | [] => .ok fh
  | (k, v) :: rest =>
    match processHoursEntry fh k v with
    | .error e => .error e
    | .ok fh2 => parseHoursGo fh2 rest

def parse_building_hours (hours_dict : List (Str × Str)) :
    Except Str (List (Str × DayHours)) :=
  parseHoursGo [] hours_dict


/-! ## `load_to_postgres.py`: `validate_academic_terms_structure`

A term record models presence of the required keys (the values of
`academic_year`/`term` are never inspected); `parseDate` implements
`datetime.strptime(%Y-%m-%d).date()`: the `strptime` regexes for
`%Y`/`%m`/`%d` plus the `datetime` constructor's calendar validation
(`MINYEAR = 1`, real day-of-month with leap years); `dateLE` is the
lexicographic order of `datetime.date`. -/

def matchYear : Str → Option (Nat × Str)
  | c1 :: c2 :: c3 :: c4 :: rest =>
    if (48 ≤ c1.toNat ∧ c1.toNat ≤ 57) ∧ (48 ≤ c2.toNat ∧ c2.toNat ≤ 57) ∧
       (48 ≤ c3.toNat ∧ c3.toNat ≤ 57) ∧ (48 ≤ c4.toNat ∧ c4.toNat ≤ 57) then
      some ((c1.toNat - 48) * 1000 + (c2.toNat - 48) * 100 +
        (c3.toNat - 48) * 10 + (c4.toNat - 48), rest)
    else none
  | _ => none

def matchDay : Str → Option (Nat × Str)
  | [] => none
  | [c] => if 49 ≤ c.toNat ∧ c.toNat ≤ 57 then some (c.toNat - 48, []) else none
  | c1 :: c2 :: rest =>
    if c1.toNat = 51 ∧ (c2.toNat = 48 ∨ c2.toNat = 49) then
      some (30 + (c2.toNat - 48), rest)
    else if (c1.toNat = 49 ∨ c1.toNat = 50) ∧
        (48 ≤ c2.toNat ∧ c2.toNat ≤ 57) then
      some ((c1.toNat - 48) * 10 + (c2.toNat - 48), rest)
    else if c1.toNat = 48 ∧ (49 ≤ c2.toNat ∧ c2.toNat ≤ 57) then
      some (c2.toNat - 48, rest)
    else if 49 ≤ c1.toNat ∧ c1.toNat ≤ 57 then some (c1.toNat - 48, c2 :: rest)
    else none

def isLeapYear (y : Nat) : Bool :=
  (y % 4 == 0 && y % 100 != 0) || y % 400 == 0

def daysInMonth (y m : Nat) : Nat :=
  if m = 2 then (if isLeapYear y then 29 else 28)
  else if m = 4 ∨ m = 6 ∨ m = 9 ∨ m = 11 then 30
  else 31

def parseDate (s : Str) : Option (Nat × Nat × Nat) :=
  match matchYear s with
  | some (y, c1 :: r1) =>
    if c1 = '-' then
      match matchHour r1 with
      | some (mo, c2 :: r2) =>
        if c2 = '-' then
          match matchDay r2 with
          | some (d, []) =>
            if 1 ≤ y ∧ d ≤ daysInMonth y mo then some (y, mo, d) else none
          | _ => none
        else none
      | _ => none
    else none
  | _ => none

structure TermRecord where
  has_academic_year : Bool
  has_term : Bool
  start_date : Option Str
  end_date : Option Str
  part_of_term : Option Str
deriving DecidableEq, Repr

def dateLE (a b : Nat × Nat × Nat) : Prop :=
  a.1 < b.1 ∨ (a.1 = b.1 ∧ (a.2.1 < b.2.1 ∨ (a.2.1 = b.2.1 ∧ a.2.2 ≤ b.2.2)))

instance (a b : Nat × Nat × Nat) : Decidable (dateLE a b) := by
  unfold dateLE
  exact inferInstance

def validate_term_dates (sd ed : Str) : Except Str Unit :=
  match parseDate sd with
  | none => .error (strOf "Invalid date format in term")
  | some s =>
    match parseDate ed with
    | none => .error (strOf "Invalid date format in term")
    | some e =>
      if dateLE e s then .error (strOf "End date must be after start date")
      else .ok ()

def validate_term (t : TermRecord) : Except Str Unit :=
  match t.has_academic_year, t.has_term, t.start_date, t.end_date with
  | true, true, some sd, some ed =>
    (match t.part_of_term with
     | some p =>
       if p = strOf "A" ∨ p = strOf "B" then validate_term_dates sd ed
       else .error (strOf "Invalid part_of_term")
     | none => validate_term_dates sd ed)
  | _, _, _, _ => .error (strOf "Academic term missing keys")

def validate_academic_terms_structure : List TermRecord → Except Str Unit
  | [] => .ok ()
  | t :: rest =>
    match validate_term t with
    | .error e => .error e
    | .ok _ => validate_academic_terms_structure rest

def ValidTermSpec (t : TermRecord) : Prop :=
  t.has_academic_year = true ∧ t.has_term = true ∧
  (∀ p, t.part_of_term = some p → p = strOf "A" ∨ p = strOf "B") ∧
  ∃ sd ed s e, t.start_date = some sd ∧ t.end_date = some ed ∧
    parseDate sd = some s ∧ parseDate ed = some e ∧ ¬ dateLE e s

def egTerm : TermRecord :=
  { has_academic_year := true, has_term := true,
    start_date := some (strOf "2026-01-12"),
    end_date := some (strOf "2026-05-05"),
    part_of_term := some (strOf "A") }


/-! ### C2: `total_sections` equals the sum of per-room meeting counts -/

/-- The invariant claimed of every building-derived document. -/
def TotalSectionsInv (d : BuildingData) : Prop :=
  d.total_sections = (d.rooms.map (fun r => r.2.length)).sum

/-- The meeting of the end-to-end example in spec §8. -/
def egMeeting : BMeeting :=
  { course := strOf "ACG 2021"
    title := strOf "Principles of Financial Accounting"
    time := some ⟨strOf "07:30", strOf "08:50"⟩
    days := ['M', 'W']
    start_date := strOf "2026-01-12"
    end_date := strOf "2026-05-05" }

/-- The building data the example document should derive for `BA1`. -/
def egBuildingData : BuildingData :=
  { rooms := [(strOf "O107", [egMeeting])], total_sections := 1 }

/-- The subject-indexed input of the end-to-end example in spec §8:
course `ACG 2021` with one located section and one with no location. -/
def egSubjects : List Subject :=
  [{ code := strOf "ACG"
     courses :=
       [{ number := strOf "ACG 2021"
          title := strOf "Principles of Financial Accounting"
          sections :=
            [{ location := some ⟨strOf "BA1", strOf "O107"⟩
               time := some ⟨strOf "07:30", strOf "08:50"⟩
               days := ['M', 'W']
               start_date := strOf "2026-01-12"
               end_date := strOf "2026-05-05" },
             { location := none
               time := none
               days := []
               start_date := strOf ""
               end_date := strOf "" }] }] }]

theorem addToRoom_sum (room : Str) (m : BMeeting) :
    ∀ rooms : List (Str × List BMeeting),
      ((addToRoom room m rooms).map (fun r => r.2.length)).sum =
        (rooms.map (fun r => r.2.length)).sum + 1 := by
  intro rooms
  induction rooms with
  | nil => simp [addToRoom]
  | cons hd tl ih =>
    by_cases h : hd.1 = room
    · simp [addToRoom, h]
      omega
    · simp only [addToRoom, h, if_false]
      simp only [List.map_cons, List.sum_cons, ih]
      omega

theorem addMeeting_inv (building room : Str) (m : BMeeting)
    (bs : List (Str × BuildingData))
    (h : ∀ p ∈ bs, TotalSectionsInv p.2) :
    ∀ p ∈ addMeeting building room m bs, TotalSectionsInv p.2 := by
  induction bs with
  | nil =>
    intro p hp
    simp only [addMeeting, List.mem_singleton] at hp
    subst hp
    simp [TotalSectionsInv, addToRoom]
  | cons hd tl ih =>
    intro p hp
    by_cases hb : hd.1 = building
    · simp only [addMeeting, hb, if_true, List.mem_cons] at hp
      rcases hp with hp | hp
      · subst hp
        have hhd := h hd (List.mem_cons_self _ _)
        simp only [TotalSectionsInv] at hhd ⊢
        rw [addToRoom_sum, ← hhd]
      · exact h p (List.mem_cons_of_mem _ hp)
    · simp only [addMeeting, hb, if_false, List.mem_cons] at hp
      rcases hp with hp | hp
      · subst hp
        exact h hd (List.mem_cons_self _ _)
      · exact ih (fun q hq => h q (List.mem_cons_of_mem _ hq)) p hp

theorem processSection_inv (c : Course) (bs : List (Str × BuildingData))
    (sec : SectionRec) (h : ∀ p ∈ bs, TotalSectionsInv p.2) :
    ∀ p ∈ processSection c bs sec, TotalSectionsInv p.2 := by
  intro p hp
  simp only [processSection] at hp
  split at hp
  · exact h p hp
  · split at hp
    · exact h p hp
    · exact addMeeting_inv _ _ _ bs h p hp

theorem foldl_preserves {α β : Type} (P : β → Prop) (f : β → α → β)
    (hf : ∀ b a, P b → P (f b a)) :
    ∀ (l : List α) (b : β), P b → P (l.foldl f b) := by
  intro l
  induction l with
  | nil => intro b hb; exact hb
  | cons hd tl ih => intro b hb; exact ih _ (hf b hd hb)

/-- C2. For every subject-indexed input, every building produced by
`process_to_buildings` has `total_sections` equal to the sum of its
per-room meeting-list lengths: the counter is recomputed during the fold
(incremented exactly once per appended meeting), never read from the
input document. -/
theorem total_sections_eq_sum_of_room_counts (subjects : List Subject)
    (b : Str) (d : BuildingData)
    (h : (b, d) ∈ process_to_buildings subjects) :
    d.total_sections = (d.rooms.map (fun r => r.2.length)).sum := by
  have key : ∀ p ∈ process_to_buildings subjects, TotalSectionsInv p.2 := by
    unfold process_to_buildings
    refine foldl_preserves
      (fun bs : List (Str × BuildingData) => ∀ p ∈ bs, TotalSectionsInv p.2) _
      ?_ subjects [] (by intro p hp; cases hp)
    intro bs subj hbs
    refine foldl_preserves
      (fun bs : List (Str × BuildingData) => ∀ p ∈ bs, TotalSectionsInv p.2) _
      ?_ subj.courses bs hbs
    intro bs course hbs2
    refine foldl_preserves
      (fun bs : List (Str × BuildingData) => ∀ p ∈ bs, TotalSectionsInv p.2) _
      ?_ course.sections bs hbs2
    intro bs sec hbs3
    exact processSection_inv course bs sec hbs3
  exact key (b, d) h

/-- Witness for C2: the end-to-end example of spec §8 — subject `ACG`,
course `ACG 2021`, one section at `BA1 O107` on Mon/Wed and one with no
location — yields building `BA1` with one meeting and
`total_sections = 1`, matching the invariant. -/
theorem total_sections_eq_sum_of_room_counts_witness :
    (strOf "BA1", egBuildingData) ∈ process_to_buildings egSubjects ∧
    egBuildingData.total_sections =
      (egBuildingData.rooms.map (fun r => r.2.length)).sum := by
  have hmem : (strOf "BA1", egBuildingData) ∈ process_to_buildings egSubjects := by
    decide
  exact ⟨hmem, total_sections_eq_sum_of_room_counts egSubjects _ _ hmem⟩

/-! ### C4: the building filter -/

/-- C4. `filter_buildings` retains exactly the input buildings with at
least `min_rooms` (= 4) rooms whose code is outside the exclusion set
`{DPAC, RSH, CROL}`, passing each retained building's data through
unchanged (the very same `BuildingData` value, so a room count is never
increased), and never admits an excluded code; the document's
`last_updated` and `term` fields are copied through. -/
theorem filter_buildings_mem_iff (d : BuildingDoc) (code : Str)
    (bd : BuildingData) :
    ((code, bd) ∈ (filter_buildings d).buildings ↔
      (code, bd) ∈ d.buildings ∧ 4 ≤ bd.rooms.length ∧
        code ∉ excluded_buildings) ∧
    (filter_buildings d).last_updated = d.last_updated ∧
    (filter_buildings d).term = d.term := by
  refine ⟨?_, rfl, rfl⟩
  simp only [filter_buildings, List.mem_filter, Bool.and_eq_true,
    Bool.not_eq_true', decide_eq_true_eq, decide_eq_false_iff_not, min_rooms]

/-! ### C1, C3, C9: the loader's flattening -/

theorem flatMap_length {α β : Type} (f : α → List β) (l : List α) :
    (l.flatMap f).length = (l.map (fun a => (f a).length)).sum := by
  induction l with
  | nil => rfl
  | cons hd tl ih => simp [List.flatMap_cons, ih]

theorem processRooms_ok (name : Str) :
    ∀ (rooms : List (Str × List EMeeting)) (keys keys2 : List (Str × Str))
      (rrows : List RoomRow) (srows : List ScheduleRow),
      processRooms name rooms keys = .ok (keys2, rrows, srows) →
      keys2 = (rooms.map (fun r => ((name, r.1) : Str × Str))).reverse ++ keys ∧
      rrows = rooms.map (fun r => (⟨name, r.1⟩ : RoomRow)) ∧
      srows = rooms.flatMap (fun r =>
        r.2.flatMap (fun ci => ci.days.map (mkScheduleRow name r.1 ci))) ∧
      (rooms.map (fun r => ((name, r.1) : Str × Str))).Nodup ∧
      (∀ k ∈ rooms.map (fun r => ((name, r.1) : Str × Str)), k ∉ keys) := by
  intro rooms
  induction rooms with
  | nil =>
    intro keys keys2 rrows srows h
    simp only [processRooms, Except.ok.injEq, Prod.mk.injEq] at h
    obtain ⟨h1, h2, h3⟩ := h
    subst h1; subst h2; subst h3
    simp
  | cons hd tl ih =>
    intro keys keys2 rrows srows h
    rcases hd with ⟨rn, classes⟩
    simp only [processRooms] at h
    by_cases hmem : ((name, rn) : Str × Str) ∈ keys
    · rw [if_pos hmem] at h; cases h
    · rw [if_neg hmem] at h
      cases hrec : processRooms name tl ((name, rn) :: keys) with
      | error e => rw [hrec] at h; cases h
      | ok res =>
        rcases res with ⟨keys', rrows', srows'⟩
        rw [hrec] at h
        simp only [Except.ok.injEq, Prod.mk.injEq] at h
        obtain ⟨hk, hr, hs⟩ := h
        obtain ⟨ih1, ih2, ih3, ih4, ih5⟩ := ih _ _ _ _ hrec
        subst hk; subst hr; subst hs
        refine ⟨?_, ?_, ?_, ?_, ?_⟩
        · rw [ih1]; simp
        · rw [ih2]; simp
        · rw [ih3]; simp [List.flatMap_cons]
        · simp only [List.map_cons, List.nodup_cons]
          refine ⟨?_, ih4⟩
          intro hcon
          exact (ih5 _ hcon) (List.mem_cons_self _ _)
        · intro k hkmem
          simp only [List.map_cons, List.mem_cons] at hkmem
          rcases hkmem with hkmem | hkmem
          · subst hkmem; exact hmem
          · intro hin
            exact (ih5 _ hkmem) (List.mem_cons_of_mem _ hin)

theorem prepareGo_ok :
    ∀ (doc : List (Str × EnrichedBuilding)) (keys : List (Str × Str))
      (bs : List BuildingRow) (rs : List RoomRow) (ss : List ScheduleRow),
      prepareGo doc keys = .ok (bs, rs, ss) →
      bs = doc.map (fun b => mkBuildingRow b.1 b.2) ∧
      rs = doc.flatMap (fun b =>
        b.2.rooms.map (fun r => (⟨b.1, r.1⟩ : RoomRow))) ∧
      ss = spec_schedule_rows doc ∧
      (roomKeysOf doc).Nodup ∧
      (∀ k ∈ roomKeysOf doc, k ∉ keys) := by
  intro doc
  induction doc with
  | nil =>
    intro keys bs rs ss h
    simp only [prepareGo, Except.ok.injEq, Prod.mk.injEq] at h
    obtain ⟨h1, h2, h3⟩ := h
    subst h1; subst h2; subst h3
    simp [spec_schedule_rows, roomKeysOf]
  | cons hd tl ih =>
    intro keys bs rs ss h
    rcases hd with ⟨name, b⟩
    simp only [prepareGo] at h
    cases hpr : processRooms name b.rooms keys with
    | error e => rw [hpr] at h; cases h
    | ok res =>
      rcases res with ⟨keys2, rrows, srows⟩
      rw [hpr] at h
      dsimp only at h
      cases hrec : prepareGo tl keys2 with
      | error e => rw [hrec] at h; cases h
      | ok res2 =>
        rcases res2 with ⟨brows, rrows2, srows2⟩
        rw [hrec] at h
        simp only [Except.ok.injEq, Prod.mk.injEq] at h
        obtain ⟨hb, hr, hs⟩ := h
        obtain ⟨pk, pr, ps, pnd, pnin⟩ := processRooms_ok name b.rooms _ _ _ _ hpr
        obtain ⟨ib, ir, is, ind, inin⟩ := ih _ _ _ _ hrec
        subst hb; subst hr; subst hs
        have hkeys : roomKeysOf ((name, b) :: tl) =
            b.rooms.map (fun r => ((name, r.1) : Str × Str)) ++ roomKeysOf tl := by
          simp [roomKeysOf, List.flatMap_cons]
        refine ⟨?_, ?_, ?_, ?_, ?_⟩
        · rw [ib]; simp
        · rw [pr, ir]; simp [List.flatMap_cons]
        · rw [ps, is]; simp [spec_schedule_rows, List.flatMap_cons]
        · rw [hkeys]
          apply List.Nodup.append pnd ind
          intro k hk1 hk2
          have := inin k hk2
          rw [pk] at this
          exact this (List.mem_append_left _ (List.mem_reverse.mpr hk1))
        · rw [hkeys]
          intro k hk
          rcases List.mem_append.mp hk with hk | hk
          · exact pnin k hk
          · intro hin
            have := inin k hk
            rw [pk] at this
            exact this (List.mem_append_right _ hin)

/-- C1. Whenever the loader's flattening succeeds, the schedule list is
exactly one row per (building, room, class, weekday-code) — each class
entry with `K` day codes yields exactly `K` rows carrying its building,
room, course, title, time, day and date range — so the total number of
schedule rows is the sum over all meetings of the lengths of their
`days` lists (`N` meetings each on `K` days give `N×K` rows). -/
theorem schedule_rows_one_per_day (doc : List (Str × EnrichedBuilding))
    (bs : List BuildingRow) (rs : List RoomRow) (ss : List ScheduleRow)
    (h : prepare_and_validate_data doc = .ok (bs, rs, ss)) :
    ss = spec_schedule_rows doc ∧
    ss.length = (doc.map (fun b =>
      (b.2.rooms.map (fun r => (r.2.map (fun ci => ci.days.length)).sum)).sum)).sum := by
  obtain ⟨-, -, hss, -, -⟩ := prepareGo_ok doc [] bs rs ss h
  subst hss
  refine ⟨rfl, ?_⟩
  simp [spec_schedule_rows, flatMap_length, List.map_map, Function.comp_def]

/-- Witness for C1: on the one-building document `egEnrichedDoc`, the
flattening succeeds and produces exactly the three expected rows (two
for the Mon/Wed class, one for the Tue class). -/
theorem schedule_rows_one_per_day_witness :
    prepare_and_validate_data egEnrichedDoc = .ok (egBRows, egRRows, egSRows) ∧
    egSRows = spec_schedule_rows egEnrichedDoc ∧
    egSRows.length = (egEnrichedDoc.map (fun b =>
      (b.2.rooms.map (fun r => (r.2.map (fun ci => ci.days.length)).sum)).sum)).sum := by
  have h : prepare_and_validate_data egEnrichedDoc =
      .ok (egBRows, egRRows, egSRows) := by rfl
  exact ⟨h, schedule_rows_one_per_day egEnrichedDoc _ _ _ h⟩

/-- C3. A duplicate `(building, room)` pair anywhere in the document —
including one spread across two building entries — makes the flattening
raise `DataValidationError`: no row triple is ever returned, so nothing
reaches the store. -/
theorem duplicate_room_rejected (doc : List (Str × EnrichedBuilding))
    (h : ¬ (roomKeysOf doc).Nodup) :
    ∃ e, prepare_and_validate_data doc = .error e := by
  cases hres : prepare_and_validate_data doc with
  | error e => exact ⟨e, rfl⟩
  | ok res =>
    rcases res with ⟨bs, rs, ss⟩
    obtain ⟨-, -, -, hnd, -⟩ := prepareGo_ok doc [] bs rs ss hres
    exact absurd hnd h

/-- Witness for C3: `egDupDoc` repeats the key `(BA1, O107)` across two
building entries and is rejected with an error. -/
theorem duplicate_room_rejected_witness :
    ¬ (roomKeysOf egDupDoc).Nodup ∧
    ∃ e, prepare_and_validate_data egDupDoc = .error e := by
  have h : ¬ (roomKeysOf egDupDoc).Nodup := by decide
  exact ⟨h, duplicate_room_rejected egDupDoc h⟩

/-- C9. For every document on which the (type-enforced)
`validate_json_structure` and `prepare_and_validate_data` succeed, the
independently recomputed expected counts in `verify_data_counts` always
match the flattened lists, so its mismatch branches are unreachable. -/
theorem verify_data_counts_never_fails (doc : List (Str × EnrichedBuilding))
    (bs : List BuildingRow) (rs : List RoomRow) (ss : List ScheduleRow)
    (h : prepare_and_validate_data doc = .ok (bs, rs, ss)) :
    verify_data_counts doc bs rs ss = .ok () := by
  obtain ⟨hbs, hrs, hss, -, -⟩ := prepareGo_ok doc [] bs rs ss h
  subst hbs; subst hrs; subst hss
  have h1 : (doc.map (fun b => mkBuildingRow b.1 b.2)).length = doc.length :=
    List.length_map _ _
  have h2 : (doc.flatMap (fun b =>
      b.2.rooms.map (fun r => (⟨b.1, r.1⟩ : RoomRow)))).length =
      (doc.map (fun b => b.2.rooms.length)).sum := by
    simp [flatMap_length, Function.comp_def, List.length_map]
  have h3 : (spec_schedule_rows doc).length = (doc.map (fun b =>
      (b.2.rooms.map (fun r => (r.2.map (fun ci => ci.days.length)).sum)).sum)).sum := by
    simp [spec_schedule_rows, flatMap_length, List.map_map, Function.comp_def]
  simp [verify_data_counts, h1, h2, h3]

/-- Witness for C9: on `egEnrichedDoc` the flattening succeeds and the
count verification passes. -/
theorem verify_data_counts_never_fails_witness :
    prepare_and_validate_data egEnrichedDoc = .ok (egBRows, egRRows, egSRows) ∧
    verify_data_counts egEnrichedDoc egBRows egRRows egSRows = .ok () := by
  have h : prepare_and_validate_data egEnrichedDoc =
      .ok (egBRows, egRRows, egSRows) := by rfl
  exact ⟨h, verify_data_counts_never_fails egEnrichedDoc _ _ _ h⟩

/-! ### C8: chunked bulk insertion -/

theorem bulk_fold {α : Type} (attempt : List α → Bool) :
    ∀ (cs : List (List α)) (a b : Nat),
      cs.foldl (fun acc chunk =>
        if attempt chunk then (acc.1 + chunk.length, acc.2)
        else (acc.1, acc.2 + 1)) (a, b) =
      (a + ((cs.filter attempt).map List.length).sum,
       b + (cs.filter (fun c => !attempt c)).length) := by
  intro cs
  induction cs with
  | nil => intro a b; simp
  | cons hd tl ih =>
    intro a b
    by_cases h : attempt hd
    · simp [List.filter_cons, h, ih, Nat.add_assoc]
    · have h' : attempt hd = false := by
        revert h
        cases attempt hd <;> simp
      rw [List.foldl_cons, if_neg h, ih]
      simp [List.filter_cons, h', Prod.ext_iff]
      all_goals omega

theorem chunksOf_flatten_fuel {α : Type} (n : Nat) :
    ∀ (fuel : Nat) (l : List α), l.length ≤ fuel →
      (chunksOf (n + 1) l).flatten = l := by
  intro fuel
  induction fuel with
  | zero =>
    intro l hl
    have hnil : l = [] := List.eq_nil_of_length_eq_zero (Nat.le_zero.mp hl)
    subst hnil
    simp [chunksOf]
  | succ k ih =>
    intro l hl
    cases l with
    | nil => simp [chunksOf]
    | cons a t =>
      have hrec : (chunksOf (n + 1) (t.drop n)).flatten = t.drop n := by
        apply ih
        simp only [List.length_drop, List.length_cons] at hl ⊢
        omega
      simp only [chunksOf, List.flatten_cons, hrec, List.take_succ_cons,
        List.cons_append, List.take_append_drop]

theorem chunksOf_sizes_fuel {α : Type} (n : Nat) :
    ∀ (fuel : Nat) (l : List α), l.length ≤ fuel →
      ∀ c ∈ chunksOf (n + 1) l, c ≠ [] ∧ c.length ≤ n + 1 := by
  intro fuel
  induction fuel with
  | zero =>
    intro l hl c hc
    have hnil : l = [] := List.eq_nil_of_length_eq_zero (Nat.le_zero.mp hl)
    subst hnil
    simp [chunksOf] at hc
  | succ k ih =>
    intro l hl c hc
    cases l with
    | nil => simp [chunksOf] at hc
    | cons a t =>
      simp only [chunksOf, List.mem_cons] at hc
      rcases hc with hc | hc
      · subst hc
        constructor
        · simp [List.take_succ_cons]
        · simpa using List.length_take_le (n + 1) (a :: t)
      · apply ih (t.drop n) _ c hc
        simp only [List.length_drop, List.length_cons] at hl ⊢
        omega

/-- C8. For every non-empty record list, `bulk_insert` partitions the
records into chunks of the fixed batch size (500): the chunks
concatenated in order reproduce the record list and every chunk is
non-empty with at most 500 records. Every chunk is attempted regardless
of earlier failures: the call raises exactly when at least one chunk
failed, the aggregate error naming the total number of failed chunks;
if no chunk failed it returns the processed record count. -/
theorem bulk_insert_chunked {α : Type} (attempt : List α → Bool)
    (records : List α) (h : records ≠ []) :
    (chunksOf CHUNK_SIZE records).flatten = records ∧
    (∀ c ∈ chunksOf CHUNK_SIZE records, c ≠ [] ∧ c.length ≤ CHUNK_SIZE) ∧
    (bulk_insert attempt records =
        .error ((chunksOf CHUNK_SIZE records).filter
          (fun c => !attempt c)).length ↔
      ∃ c ∈ chunksOf CHUNK_SIZE records, attempt c = false) ∧
    ((∀ c ∈ chunksOf CHUNK_SIZE records, attempt c = true) →
      bulk_insert attempt records = .ok records.length) := by
  have hjoin : (chunksOf CHUNK_SIZE records).flatten = records :=
    chunksOf_flatten_fuel 499 records.length records (le_refl _)
  have hsizes := chunksOf_sizes_fuel 499 records.length records (le_refl _)
  have hne : ¬ records.isEmpty = true := by
    simp [List.isEmpty_iff, h]
  have hunfold : bulk_insert attempt records =
      (if ((chunksOf CHUNK_SIZE records).filter (fun c => !attempt c)).length ≠ 0
       then .error ((chunksOf CHUNK_SIZE records).filter (fun c => !attempt c)).length
       else .ok (((chunksOf CHUNK_SIZE records).filter attempt).map List.length).sum) := by
    unfold bulk_insert
    rw [if_neg hne]
    simp only [bulk_fold, Nat.zero_add]
  refine ⟨hjoin, hsizes, ?_, ?_⟩
  · constructor
    · intro herr
      by_cases hz : ((chunksOf CHUNK_SIZE records).filter (fun c => !attempt c)).length = 0
      · rw [hunfold, if_neg (by omega)] at herr
        cases herr
      · have hnil : (chunksOf CHUNK_SIZE records).filter (fun c => !attempt c) ≠ [] := by
          intro hcon
          rw [hcon] at hz
          exact hz rfl
        obtain ⟨c, hc⟩ := List.exists_mem_of_ne_nil _ hnil
        have := List.mem_filter.mp hc
        exact ⟨c, this.1, by simpa using this.2⟩
    · rintro ⟨c, hcmem, hcfail⟩
      have hcfil : c ∈ (chunksOf CHUNK_SIZE records).filter (fun c => !attempt c) :=
        List.mem_filter.mpr ⟨hcmem, by simp [hcfail]⟩
      have hz : ((chunksOf CHUNK_SIZE records).filter (fun c => !attempt c)).length ≠ 0 := by
        intro hcon
        rw [List.length_eq_zero] at hcon
        rw [hcon] at hcfil
        cases hcfil
      rw [hunfold, if_pos hz]
  · intro hall
    have hfilfail : (chunksOf CHUNK_SIZE records).filter (fun c => !attempt c) = [] := by
      apply List.filter_eq_nil_iff.mpr
      intro c hc
      simp [hall c hc]
    have hfilok : (chunksOf CHUNK_SIZE records).filter attempt =
        chunksOf CHUNK_SIZE records := by
      apply List.filter_eq_self.mpr
      intro c hc
      exact hall c hc
    rw [hunfold, hfilfail, hfilok]
    simp only [List.length_nil, ne_eq, not_true_eq_false, if_false,
      Except.ok.injEq]
    conv_rhs => rw [← hjoin]
    rw [List.length_flatten]

/-- Witness for C8: two records, one chunk, an always-succeeding store:
the chunks concatenate back to the records and the call returns the
processed count 2. -/
theorem bulk_insert_chunked_witness :
    ([0, 1] : List Nat) ≠ [] ∧
    (chunksOf CHUNK_SIZE ([0, 1] : List Nat)).flatten = [0, 1] ∧
    bulk_insert (fun _ => true) ([0, 1] : List Nat) = .ok 2 := by
  have h : ([0, 1] : List Nat) ≠ [] := by decide
  obtain ⟨hj, -, -, hall⟩ := bulk_insert_chunked (fun _ => true) [0, 1] h
  exact ⟨h, hj, hall (fun c _ => rfl)⟩

/-! ### C10: `parse_days` -/

theorem startsWith_mem :
    ∀ (p l : List Char), startsWith p l = true → ∀ a ∈ p, a ∈ l := by
  intro p
  induction p with
  | nil => intro l _ a ha; cases ha
  | cons x xs ih =>
    intro l h a ha
    cases l with
    | nil => cases h
    | cons c cs =>
      simp only [startsWith, Bool.and_eq_true, beq_iff_eq] at h
      rcases List.mem_cons.mp ha with rfl | ha
      · rw [h.1]; exact List.mem_cons_self _ _
      · exact List.mem_cons_of_mem _ (ih cs h.2 a ha)

theorem hasSub_mem :
    ∀ (p l : List Char), hasSub p l = true → ∀ a ∈ p, a ∈ l := by
  intro p l
  induction l with
  | nil =>
    intro h a ha
    simp only [hasSub, List.isEmpty_iff] at h
    subst h
    cases ha
  | cons c cs ih =>
    intro h a ha
    simp only [hasSub, Bool.or_eq_true] at h
    rcases h with h | h
    · exact startsWith_mem p _ h a ha
    · exact List.mem_cons_of_mem _ (ih h a ha)

/-- C10. `parse_days` always returns a duplicate-free sublist of
`[M, T, W, R, F, S, U]` in that fixed order; and because the
single-letter fallback tests letter occurrence anywhere in the string,
any input containing none of the 2-letter tokens but containing the
substring `AM` or `PM` gets `M` in its result — in particular
`parse_days "F 10:00AM - 11:00AM" = [M, F]`. -/
theorem parse_days_ordered_and_am_quirk (s : Str) :
    (parse_days s).Sublist day_codes ∧ (parse_days s).Nodup ∧
    ((∀ p ∈ day_mapping, hasSub p.1 s = false) →
      (hasSub (strOf "AM") s = true ∨ hasSub (strOf "PM") s = true) →
      'M' ∈ parse_days s) ∧
    parse_days (strOf "F 10:00AM - 11:00AM") = ['M', 'F'] := by
  have hsub : (parse_days s).Sublist day_codes := by
    unfold parse_days
    by_cases hdays :
        (day_mapping.filter (fun p => hasSub p.1 s)).map (fun p => p.2) = []
    · simp only [hdays, if_pos]
      split <;> split <;> split <;> decide
    · simp only [hdays, if_neg, ite_false]
      have h1 : (day_mapping.filter (fun p => hasSub p.1 s)).Sublist day_mapping :=
        List.filter_sublist _
      have h2 := List.Sublist.map (fun p => p.2) h1
      have h3 : day_mapping.map (fun p : Str × Char => p.2) = day_codes := by decide
      rw [h3] at h2
      exact h2
  refine ⟨hsub, hsub.nodup (by decide), ?_, by decide⟩
  intro hnone ham
  have hdays :
      (day_mapping.filter (fun p => hasSub p.1 s)).map (fun p => p.2) = [] := by
    rw [List.filter_eq_nil_iff.mpr (by intro p hp; simp [hnone p hp])]
    rfl
  have hM : 'M' ∈ s := by
    rcases ham with h | h
    · exact hasSub_mem _ _ h 'M' (by decide)
    · exact hasSub_mem _ _ h 'M' (by decide)
  have hcond : (s.contains 'M' && !(hasSub (strOf "Mo") s)) = true := by
    rw [Bool.and_eq_true]
    constructor
    · exact List.elem_iff.mpr hM
    · simp [hnone (strOf "Mo", 'M') (by decide)]
  unfold parse_days
  simp only [hdays, if_pos, hcond, if_true]
  exact List.mem_append_left _ (List.mem_append_left _ (List.mem_cons_self _ _))

/-- Witness for C10: at the concrete input `"F 10:00AM - 11:00AM"` —
which contains no 2-letter day token but contains `AM` — the result
`[M, F]` is an ordered duplicate-free sublist of the day codes and
contains the spurious `M`. -/
theorem parse_days_ordered_and_am_quirk_witness :
    (parse_days (strOf "F 10:00AM - 11:00AM")).Sublist day_codes ∧
    'M' ∈ parse_days (strOf "F 10:00AM - 11:00AM") := by
  obtain ⟨h1, -, h3, -⟩ :=
    parse_days_ordered_and_am_quirk (strOf "F 10:00AM - 11:00AM")
  exact ⟨h1, h3 (by decide) (Or.inl (by decide))⟩

theorem digitChar_toNat (d : Nat) (hd : d ≤ 9) : (digitChar d).toNat = 48 + d := by
  interval_cases d <;> decide

theorem digitChar_eq_self (c : Char) (h48 : 48 ≤ c.toNat) (h57 : c.toNat ≤ 57) :
    digitChar (c.toNat - 48) = c := by
  unfold digitChar
  rw [show 48 + (c.toNat - 48) = c.toNat from by omega, Char.ofNat_toNat]

theorem matchHour_single (c : Char) (r : Str)
    (hc : 50 ≤ c.toNat ∧ c.toNat ≤ 57) :
    matchHour (c :: r) = some (c.toNat - 48, r) := by
  have h1 : c ≠ '1' := by
    intro hcon
    subst hcon
    revert hc
    decide
  have h0 : c ≠ '0' := by
    intro hcon
    subst hcon
    revert hc
    decide
  simp only [matchHour]
  rw [if_neg h1, if_neg h0, if_pos (by omega)]

theorem matchHour_zero (c : Char) (r : Str)
    (hc : 49 ≤ c.toNat ∧ c.toNat ≤ 57) :
    matchHour ('0' :: c :: r) = some (c.toNat - 48, r) := by
  have e : matchHour ('0' :: c :: r) =
      if 49 ≤ c.toNat ∧ c.toNat ≤ 57 then some (c.toNat - 48, r) else none := by
    simp [matchHour]
  rw [e, if_pos hc]

theorem matchHour_one_two (c : Char) (r : Str)
    (hc : 48 ≤ c.toNat ∧ c.toNat ≤ 50) :
    matchHour ('1' :: c :: r) = some (10 + (c.toNat - 48), r) := by
  have e : matchHour ('1' :: c :: r) =
      if 48 ≤ c.toNat ∧ c.toNat ≤ 50 then some (10 + (c.toNat - 48), r)
      else some (1, c :: r) := by
    simp [matchHour]
  rw [e, if_pos hc]

theorem matchHour_one_fallback (r : Str)
    (hr : ∀ c ∈ r.head?, ¬(48 ≤ c.toNat ∧ c.toNat ≤ 50)) :
    matchHour ('1' :: r) = some (1, r) := by
  cases r with
  | nil => decide
  | cons c2 rest2 =>
    have e : matchHour ('1' :: c2 :: rest2) =
        if 48 ≤ c2.toNat ∧ c2.toNat ≤ 50 then some (10 + (c2.toNat - 48), rest2)
        else some (1, c2 :: rest2) := by
      simp [matchHour]
    rw [e, if_neg (hr c2 rfl)]

theorem matchHour_complete (h : Nat) (hs r : Str)
    (hmem : hs ∈ specHourStrs h)
    (hr : ∀ c ∈ r.head?, ¬(48 ≤ c.toNat ∧ c.toNat ≤ 50)) :
    matchHour (hs ++ r) = some (h, r) := by
  unfold specHourStrs at hmem
  split_ifs at hmem with h0 h9 h12
  · cases hmem
  · simp only [List.mem_cons, List.not_mem_nil, or_false] at hmem
    rcases hmem with rfl | rfl
    · by_cases h1 : h = 1
      · subst h1
        rw [show digitChar 1 = '1' from by decide]
        exact matchHour_one_fallback r hr
      · have hd : (digitChar h).toNat = 48 + h := digitChar_toNat h h9
        rw [List.cons_append, List.nil_append]
        rw [matchHour_single (digitChar h) r (by omega)]
        congr 1
        rw [Prod.mk.injEq]
        exact ⟨by omega, rfl⟩
    · have hd : (digitChar h).toNat = 48 + h := digitChar_toNat h h9
      rw [List.cons_append, List.cons_append, List.nil_append]
      rw [matchHour_zero (digitChar h) r (by omega)]
      congr 1
      rw [Prod.mk.injEq]
      exact ⟨by omega, rfl⟩
  · simp only [List.mem_cons, List.not_mem_nil, or_false] at hmem
    subst hmem
    have hd : (digitChar (h - 10)).toNat = 48 + (h - 10) :=
      digitChar_toNat (h - 10) (by omega)
    rw [List.cons_append, List.cons_append, List.nil_append]
    rw [matchHour_one_two (digitChar (h - 10)) r (by omega)]
    congr 1
    rw [Prod.mk.injEq]
    exact ⟨by omega, rfl⟩
  · cases hmem

theorem matchHour_sound (s : Str) (h : Nat) (r : Str)
    (hm : matchHour s = some (h, r)) :
    1 ≤ h ∧ h ≤ 12 ∧ ∃ hs ∈ specHourStrs h, s = hs ++ r := by
  cases s with
  | nil => simp [matchHour] at hm
  | cons c1 rest1 =>
    simp only [matchHour] at hm
    by_cases hc1 : c1 = '1'
    · rw [if_pos hc1] at hm
      subst hc1
      cases rest1 with
      | nil =>
        simp only [Option.some.injEq, Prod.mk.injEq] at hm
        obtain ⟨rfl, rfl⟩ := hm
        exact ⟨le_refl 1, by omega, ['1'], by decide, rfl⟩
      | cons c2 rest2 =>
        dsimp only at hm
        by_cases hg : 48 ≤ c2.toNat ∧ c2.toNat ≤ 50
        · rw [if_pos hg] at hm
          simp only [Option.some.injEq, Prod.mk.injEq] at hm
          obtain ⟨rfl, rfl⟩ := hm
          refine ⟨by omega, by omega, ['1', c2], ?_, rfl⟩
          unfold specHourStrs
          rw [if_neg (by omega), if_neg (by omega), if_pos (by omega)]
          have : digitChar (10 + (c2.toNat - 48) - 10) = c2 := by
            rw [show 10 + (c2.toNat - 48) - 10 = c2.toNat - 48 from by omega]
            exact digitChar_eq_self c2 (by omega) (by omega)
          rw [this]
          exact List.mem_singleton.mpr rfl
        · rw [if_neg hg] at hm
          simp only [Option.some.injEq, Prod.mk.injEq] at hm
          obtain ⟨rfl, rfl⟩ := hm
          exact ⟨le_refl 1, by omega, ['1'], by decide, rfl⟩
    · rw [if_neg hc1] at hm
      by_cases hc0 : c1 = '0'
      · rw [if_pos hc0] at hm
        subst hc0
        cases rest1 with
        | nil => cases hm
        | cons c2 rest2 =>
          dsimp only at hm
          by_cases hg : 49 ≤ c2.toNat ∧ c2.toNat ≤ 57
          · rw [if_pos hg] at hm
            simp only [Option.some.injEq, Prod.mk.injEq] at hm
            obtain ⟨rfl, rfl⟩ := hm
            refine ⟨by omega, by omega, ['0', c2], ?_, rfl⟩
            unfold specHourStrs
            rw [if_neg (by omega), if_pos (by omega)]
            rw [digitChar_eq_self c2 (by omega) (by omega)]
            simp
          · rw [if_neg hg] at hm
            cases hm
      · rw [if_neg hc0] at hm
        by_cases hg : 49 ≤ c1.toNat ∧ c1.toNat ≤ 57
        · rw [if_pos hg] at hm
          simp only [Option.some.injEq, Prod.mk.injEq] at hm
          obtain ⟨rfl, rfl⟩ := hm
          refine ⟨by omega, by omega, [c1], ?_, rfl⟩
          unfold specHourStrs
          rw [if_neg (by omega), if_pos (by omega)]
          rw [digitChar_eq_self c1 (by omega) (by omega)]
          simp
        · rw [if_neg hg] at hm
          cases hm

theorem matchMin_single (c : Char) (hc : 48 ≤ c.toNat ∧ c.toNat ≤ 57) :
    matchMin [c] = some (c.toNat - 48, []) := by
  simp only [matchMin]
  rw [if_pos hc]

theorem matchMin_two (c1 c2 : Char) (r : Str)
    (h1 : 48 ≤ c1.toNat ∧ c1.toNat ≤ 53)
    (h2 : 48 ≤ c2.toNat ∧ c2.toNat ≤ 57) :
    matchMin (c1 :: c2 :: r) =
      some ((c1.toNat - 48) * 10 + (c2.toNat - 48), r) := by
  simp only [matchMin]
  rw [if_pos ⟨h1, h2⟩]

theorem matchMin_one_fb (c1 c2 : Char) (r : Str)
    (h1 : 48 ≤ c1.toNat ∧ c1.toNat ≤ 57)
    (h2 : ¬(48 ≤ c2.toNat ∧ c2.toNat ≤ 57)) :
    matchMin (c1 :: c2 :: r) = some (c1.toNat - 48, c2 :: r) := by
  simp only [matchMin]
  rw [if_neg (fun hcon => h2 hcon.2), if_pos h1]

theorem matchMin_complete (m : Nat) (ms r : Str)
    (hmem : ms ∈ specMinStrs m)
    (hr : ∀ c ∈ r.head?, ¬(48 ≤ c.toNat ∧ c.toNat ≤ 57)) :
    matchMin (ms ++ r) = some (m, r) := by
  unfold specMinStrs at hmem
  split_ifs at hmem with h9 h59
  · simp only [List.mem_cons, List.not_mem_nil, or_false] at hmem
    have hd := digitChar_toNat m h9
    rcases hmem with rfl | rfl
    · cases r with
      | nil =>
        rw [List.append_nil, matchMin_single (digitChar m) (by omega)]
        congr 1
        rw [Prod.mk.injEq]
        exact ⟨by omega, rfl⟩
      | cons c2 rest2 =>
        rw [List.cons_append, List.nil_append,
          matchMin_one_fb (digitChar m) c2 rest2 (by omega) (hr c2 rfl)]
        congr 1
        rw [Prod.mk.injEq]
        exact ⟨by omega, rfl⟩
    · rw [List.cons_append, List.cons_append, List.nil_append,
        matchMin_two '0' (digitChar m) r (by decide) (by omega)]
      congr 1
      rw [Prod.mk.injEq]
      refine ⟨?_, rfl⟩
      have : ('0').toNat = 48 := by decide
      omega
  · simp only [List.mem_cons, List.not_mem_nil, or_false] at hmem
    subst hmem
    have hd1 := digitChar_toNat (m / 10) (by omega)
    have hd2 := digitChar_toNat (m % 10) (by omega)
    rw [List.cons_append, List.cons_append, List.nil_append,
      matchMin_two (digitChar (m / 10)) (digitChar (m % 10)) r
        (by omega) (by omega)]
    congr 1
    rw [Prod.mk.injEq]
    exact ⟨by omega, rfl⟩
  · cases hmem

theorem matchMin_sound (s : Str) (m : Nat) (r : Str)
    (hm : matchMin s = some (m, r)) :
    m ≤ 59 ∧ ∃ ms ∈ specMinStrs m, s = ms ++ r := by
  rcases s with - | ⟨c1, - | ⟨c2, rest⟩⟩
  · simp [matchMin] at hm
  · simp only [matchMin] at hm
    by_cases hg : 48 ≤ c1.toNat ∧ c1.toNat ≤ 57
    · rw [if_pos hg] at hm
      simp only [Option.some.injEq, Prod.mk.injEq] at hm
      obtain ⟨rfl, rfl⟩ := hm
      refine ⟨by omega, [c1], ?_, by simp⟩
      unfold specMinStrs
      rw [if_pos (by omega), digitChar_eq_self c1 (by omega) (by omega)]
      simp
    · rw [if_neg hg] at hm
      cases hm
  · simp only [matchMin] at hm
    by_cases hg1 : (48 ≤ c1.toNat ∧ c1.toNat ≤ 53) ∧ (48 ≤ c2.toNat ∧ c2.toNat ≤ 57)
    · rw [if_pos hg1] at hm
      simp only [Option.some.injEq, Prod.mk.injEq] at hm
      obtain ⟨rfl, rfl⟩ := hm
      by_cases hc10 : c1.toNat = 48
      · refine ⟨by omega, ['0', c2], ?_, ?_⟩
        · unfold specMinStrs
          rw [if_pos (by omega)]
          have e2 : digitChar ((c1.toNat - 48) * 10 + (c2.toNat - 48)) = c2 := by
            rw [show (c1.toNat - 48) * 10 + (c2.toNat - 48) = c2.toNat - 48 from
              by omega]
            exact digitChar_eq_self c2 (by omega) (by omega)
          rw [e2]
          simp
        · have hc1 : c1 = '0' := by
            have h0 := Char.ofNat_toNat c1
            rw [hc10] at h0
            exact h0.symm.trans (by decide)
          rw [hc1]
          rfl
      · refine ⟨by omega, [c1, c2], ?_, rfl⟩
        unfold specMinStrs
        rw [if_neg (by omega), if_pos (by omega)]
        have e1 : digitChar (((c1.toNat - 48) * 10 + (c2.toNat - 48)) / 10) = c1 := by
          rw [show ((c1.toNat - 48) * 10 + (c2.toNat - 48)) / 10 = c1.toNat - 48 from
            by omega]
          exact digitChar_eq_self c1 (by omega) (by omega)
        have e2 : digitChar (((c1.toNat - 48) * 10 + (c2.toNat - 48)) % 10) = c2 := by
          rw [show ((c1.toNat - 48) * 10 + (c2.toNat - 48)) % 10 = c2.toNat - 48 from
            by omega]
          exact digitChar_eq_self c2 (by omega) (by omega)
        rw [e1, e2]
        simp
    · rw [if_neg hg1] at hm
      by_cases hg2 : 48 ≤ c1.toNat ∧ c1.toNat ≤ 57
      · rw [if_pos hg2] at hm
        simp only [Option.some.injEq, Prod.mk.injEq] at hm
        obtain ⟨rfl, rfl⟩ := hm
        refine ⟨by omega, [c1], ?_, rfl⟩
        unfold specMinStrs
        rw [if_pos (by omega), digitChar_eq_self c1 (by omega) (by omega)]
        simp
      · rw [if_neg hg2] at hm
        cases hm

theorem matchAmPm_complete (pm : Bool) (ps r : Str)
    (hmem : ps ∈ specAmPmStrs pm) :
    matchAmPm (ps ++ r) = some (pm, r) := by
  cases pm
  · simp only [specAmPmStrs, Bool.false_eq_true, if_false, List.mem_cons,
      List.not_mem_nil, or_false] at hmem
    rcases hmem with rfl | rfl | rfl | rfl <;> rfl
  · simp only [specAmPmStrs, if_true, List.mem_cons, List.not_mem_nil,
      or_false] at hmem
    rcases hmem with rfl | rfl | rfl | rfl <;> rfl

theorem matchAmPm_sound (s : Str) (pm : Bool) (r : Str)
    (hm : matchAmPm s = some (pm, r)) :
    ∃ ps ∈ specAmPmStrs pm, s = ps ++ r := by
  rcases s with - | ⟨c1, - | ⟨c2, rest⟩⟩
  · simp [matchAmPm] at hm
  · simp [matchAmPm] at hm
  · simp only [matchAmPm] at hm
    by_cases hA : (c1 = 'A' ∨ c1 = 'a') ∧ (c2 = 'M' ∨ c2 = 'm')
    · rw [if_pos hA] at hm
      simp only [Option.some.injEq, Prod.mk.injEq] at hm
      obtain ⟨rfl, rfl⟩ := hm
      refine ⟨[c1, c2], ?_, rfl⟩
      rcases hA with ⟨h1 | h1, h2 | h2⟩ <;> subst h1 <;> subst h2 <;> decide
    · rw [if_neg hA] at hm
      by_cases hP : (c1 = 'P' ∨ c1 = 'p') ∧ (c2 = 'M' ∨ c2 = 'm')
      · rw [if_pos hP] at hm
        simp only [Option.some.injEq, Prod.mk.injEq] at hm
        obtain ⟨rfl, rfl⟩ := hm
        refine ⟨[c1, c2], ?_, rfl⟩
        rcases hP with ⟨h1 | h1, h2 | h2⟩ <;> subst h1 <;> subst h2 <;> decide
      · rw [if_neg hP] at hm
        cases hm

theorem specAmPmStrs_head_not_digit (pm : Bool) (ps : Str)
    (hp : ps ∈ specAmPmStrs pm) :
    ∀ c ∈ ps.head?, ¬(48 ≤ c.toNat ∧ c.toNat ≤ 57) := by
  cases pm
  · simp only [specAmPmStrs, Bool.false_eq_true, if_false, List.mem_cons,
      List.not_mem_nil, or_false] at hp
    rcases hp with rfl | rfl | rfl | rfl <;>
      (intro c hc; simp only [List.head?_cons, Option.mem_def,
        Option.some.injEq] at hc; subst hc; decide)
  · simp only [specAmPmStrs, if_true, List.mem_cons, List.not_mem_nil,
      or_false] at hp
    rcases hp with rfl | rfl | rfl | rfl <;>
      (intro c hc; simp only [List.head?_cons, Option.mem_def,
        Option.some.injEq] at hc; subst hc; decide)

theorem specColonStrs_intro (h m : Nat) (pm : Bool) (hs ms ps : Str)
    (hh : hs ∈ specHourStrs h) (hmm : ms ∈ specMinStrs m)
    (hp : ps ∈ specAmPmStrs pm) :
    hs ++ (':' :: (ms ++ ps)) ∈ specColonStrs h m pm := by
  unfold specColonStrs
  refine List.mem_flatMap.mpr ⟨hs, hh, ?_⟩
  refine List.mem_flatMap.mpr ⟨ms, hmm, ?_⟩
  exact List.mem_map.mpr ⟨ps, hp, rfl⟩

theorem specColonStrs_elim {h m : Nat} {pm : Bool} {t : Str}
    (ht : t ∈ specColonStrs h m pm) :
    ∃ hs ∈ specHourStrs h, ∃ ms ∈ specMinStrs m, ∃ ps ∈ specAmPmStrs pm,
      t = hs ++ (':' :: (ms ++ ps)) := by
  unfold specColonStrs at ht
  obtain ⟨hs, hh, ht⟩ := List.mem_flatMap.mp ht
  obtain ⟨ms, hmm, ht⟩ := List.mem_flatMap.mp ht
  obtain ⟨ps, hp, ht⟩ := List.mem_map.mp ht
  exact ⟨hs, hh, ms, hmm, ps, hp, ht.symm⟩

theorem specNoColonStrs_intro (h : Nat) (pm : Bool) (hs ps : Str)
    (hh : hs ∈ specHourStrs h) (hp : ps ∈ specAmPmStrs pm) :
    hs ++ ps ∈ specNoColonStrs h pm := by
  unfold specNoColonStrs
  refine List.mem_flatMap.mpr ⟨hs, hh, ?_⟩
  exact List.mem_map.mpr ⟨ps, hp, rfl⟩

theorem specNoColonStrs_elim {h : Nat} {pm : Bool} {t : Str}
    (ht : t ∈ specNoColonStrs h pm) :
    ∃ hs ∈ specHourStrs h, ∃ ps ∈ specAmPmStrs pm, t = hs ++ ps := by
  unfold specNoColonStrs at ht
  obtain ⟨hs, hh, ht⟩ := List.mem_flatMap.mp ht
  obtain ⟨ps, hp, ht⟩ := List.mem_map.mp ht
  exact ⟨hs, hh, ps, hp, ht.symm⟩

theorem parseColonTime_complete (h m : Nat) (pm : Bool) (hs ms ps : Str)
    (hh : hs ∈ specHourStrs h) (hmm : ms ∈ specMinStrs m)
    (hp : ps ∈ specAmPmStrs pm) :
    parseColonTime (hs ++ (':' :: (ms ++ ps))) = some (h, m, pm) := by
  unfold parseColonTime
  rw [matchHour_complete h hs (':' :: (ms ++ ps)) hh (by
    intro c hc
    simp only [List.head?_cons, Option.mem_def, Option.some.injEq] at hc
    subst hc
    decide)]
  dsimp only
  rw [if_pos rfl]
  rw [matchMin_complete m ms ps hmm (specAmPmStrs_head_not_digit pm ps hp)]
  dsimp only
  have hap := matchAmPm_complete pm ps [] hp
  rw [List.append_nil] at hap
  rw [hap]

theorem parseNoColonTime_complete (h : Nat) (pm : Bool) (hs ps : Str)
    (hh : hs ∈ specHourStrs h) (hp : ps ∈ specAmPmStrs pm) :
    parseNoColonTime (hs ++ ps) = some (h, pm) := by
  unfold parseNoColonTime
  rw [matchHour_complete h hs ps hh (by
    intro c hc
    intro hcon
    exact specAmPmStrs_head_not_digit pm ps hp c hc ⟨hcon.1, by omega⟩)]
  dsimp only
  have hap := matchAmPm_complete pm ps [] hp
  rw [List.append_nil] at hap
  rw [hap]

theorem parseColonTime_sound (t : Str) (h m : Nat) (pm : Bool)
    (hp : parseColonTime t = some (h, m, pm)) :
    1 ≤ h ∧ h ≤ 12 ∧ m ≤ 59 ∧ t ∈ specColonStrs h m pm := by
  unfold parseColonTime at hp
  cases hmh : matchHour t with
  | none => rw [hmh] at hp; cases hp
  | some pr =>
    rcases pr with ⟨h1, rest⟩
    rw [hmh] at hp
    dsimp only at hp
    cases rest with
    | nil => cases hp
    | cons c rest2 =>
      dsimp only at hp
      by_cases hcc : c = ':'
      · rw [if_pos hcc] at hp
        subst hcc
        cases hmm2 : matchMin rest2 with
        | none => rw [hmm2] at hp; cases hp
        | some pr2 =>
          rcases pr2 with ⟨m1, rest3⟩
          rw [hmm2] at hp
          dsimp only at hp
          cases hap : matchAmPm rest3 with
          | none => rw [hap] at hp; cases hp
          | some pr3 =>
            rcases pr3 with ⟨pm1, rest4⟩
            rw [hap] at hp
            cases rest4 with
            | nil =>
              dsimp only at hp
              simp only [Option.some.injEq, Prod.mk.injEq] at hp
              obtain ⟨rfl, rfl, rfl⟩ := hp
              obtain ⟨hb1, hb2, hs, hhs, hts⟩ := matchHour_sound t h1 _ hmh
              obtain ⟨hb3, ms, hms, hts2⟩ := matchMin_sound rest2 m1 _ hmm2
              obtain ⟨ps, hps, hts3⟩ := matchAmPm_sound rest3 pm1 _ hap
              rw [List.append_nil] at hts3
              refine ⟨hb1, hb2, hb3, ?_⟩
              rw [hts, hts2, hts3]
              exact specColonStrs_intro h1 m1 pm1 hs ms ps hhs hms hps
            | cons c4 rest5 => cases hp
      · rw [if_neg hcc] at hp
        cases hp

theorem parseNoColonTime_sound (t : Str) (h : Nat) (pm : Bool)
    (hp : parseNoColonTime t = some (h, pm)) :
    1 ≤ h ∧ h ≤ 12 ∧ t ∈ specNoColonStrs h pm := by
  unfold parseNoColonTime at hp
  cases hmh : matchHour t with
  | none => rw [hmh] at hp; cases hp
  | some pr =>
    rcases pr with ⟨h1, rest⟩
    rw [hmh] at hp
    dsimp only at hp
    cases hap : matchAmPm rest with
    | none => rw [hap] at hp; cases hp
    | some pr2 =>
      rcases pr2 with ⟨pm1, rest3⟩
      rw [hap] at hp
      cases rest3 with
      | nil =>
        dsimp only at hp
        simp only [Option.some.injEq, Prod.mk.injEq] at hp
        obtain ⟨rfl, rfl⟩ := hp
        obtain ⟨hb1, hb2, hs, hhs, hts⟩ := matchHour_sound t h1 _ hmh
        obtain ⟨ps, hps, hts2⟩ := matchAmPm_sound rest pm1 _ hap
        rw [List.append_nil] at hts2
        refine ⟨hb1, hb2, ?_⟩
        rw [hts, hts2]
        exact specNoColonStrs_intro h1 pm1 hs ps hhs hps
      | cons c4 rest5 => cases hp

theorem specColonStrs_has_colon {h m : Nat} {pm : Bool} {t : Str}
    (ht : t ∈ specColonStrs h m pm) : ':' ∈ t := by
  obtain ⟨hs, -, ms, -, ps, -, rfl⟩ := specColonStrs_elim ht
  exact List.mem_append_right _ (List.mem_cons_self _ _)

theorem specHourStrs_no_colon {h : Nat} {hs : Str}
    (hh : hs ∈ specHourStrs h) : ':' ∉ hs := by
  unfold specHourStrs at hh
  split_ifs at hh with h0 h9 h12
  · cases hh
  · have hd := digitChar_toNat h h9
    simp only [List.mem_cons, List.not_mem_nil, or_false] at hh
    intro hc
    rcases hh with rfl | rfl
    · simp only [List.mem_cons, List.not_mem_nil, or_false] at hc
      rw [← hc, show (':').toNat = 58 from rfl] at hd
      omega
    · simp only [List.mem_cons, List.not_mem_nil, or_false] at hc
      rcases hc with hc | hc
      · exact absurd hc.symm (by decide)
      · rw [← hc, show (':').toNat = 58 from rfl] at hd
        omega
  · have hd := digitChar_toNat (h - 10) (by omega)
    simp only [List.mem_cons, List.not_mem_nil, or_false] at hh
    subst hh
    intro hc
    simp only [List.mem_cons, List.not_mem_nil, or_false] at hc
    rcases hc with hc | hc
    · exact absurd hc.symm (by decide)
    · rw [← hc, show (':').toNat = 58 from rfl] at hd
      omega
  · cases hh

theorem specAmPmStrs_no_colon {pm : Bool} {ps : Str}
    (hp : ps ∈ specAmPmStrs pm) : ':' ∉ ps := by
  cases pm
  · simp only [specAmPmStrs, Bool.false_eq_true, if_false, List.mem_cons,
      List.not_mem_nil, or_false] at hp
    rcases hp with rfl | rfl | rfl | rfl <;> decide
  · simp only [specAmPmStrs, if_true, List.mem_cons, List.not_mem_nil,
      or_false] at hp
    rcases hp with rfl | rfl | rfl | rfl <;> decide

theorem specNoColonStrs_no_colon {h : Nat} {pm : Bool} {t : Str}
    (ht : t ∈ specNoColonStrs h pm) : ':' ∉ t := by
  obtain ⟨hs, hh, ps, hp, rfl⟩ := specNoColonStrs_elim ht
  intro hc
  rcases List.mem_append.mp hc with hc | hc
  · exact specHourStrs_no_colon hh hc
  · exact specAmPmStrs_no_colon hp hc

theorem specHourStrs_length {h : Nat} {hs : Str}
    (hh : hs ∈ specHourStrs h) : hs.length ≤ 2 := by
  unfold specHourStrs at hh
  split_ifs at hh with h0 h9 h12
  · cases hh
  · simp only [List.mem_cons, List.not_mem_nil, or_false] at hh
    rcases hh with rfl | rfl <;> simp
  · simp only [List.mem_cons, List.not_mem_nil, or_false] at hh
    subst hh
    simp
  · cases hh

theorem specAmPmStrs_length {pm : Bool} {ps : Str}
    (hp : ps ∈ specAmPmStrs pm) : ps.length = 2 := by
  cases pm
  · simp only [specAmPmStrs, Bool.false_eq_true, if_false, List.mem_cons,
      List.not_mem_nil, or_false] at hp
    rcases hp with rfl | rfl | rfl | rfl <;> rfl
  · simp only [specAmPmStrs, if_true, List.mem_cons, List.not_mem_nil,
      or_false] at hp
    rcases hp with rfl | rfl | rfl | rfl <;> rfl

theorem specNoColonStrs_length {h : Nat} {pm : Bool} {t : Str}
    (ht : t ∈ specNoColonStrs h pm) : t.length ≤ 4 := by
  obtain ⟨hs, hh, ps, hp, rfl⟩ := specNoColonStrs_elim ht
  rw [List.length_append, specAmPmStrs_length hp]
  have := specHourStrs_length hh
  omega

theorem strip_LOCKED : strip (strOf "LOCKED") = strOf "LOCKED" := by decide

theorem convert_special (s : Str)
    (hsp : upperStr (strip s) = strOf "12AM" ∨
      upperStr (strip s) = strOf "12:00AM") :
    convert_time_format s = .ok (some (strOf "23:59")) := by
  have hsL : s ≠ strOf "LOCKED" := by
    intro hcon
    subst hcon
    revert hsp
    decide
  unfold convert_time_format
  rw [if_neg hsL, if_pos hsp]

theorem convert_colon (s : Str) (h m : Nat) (pm : Bool)
    (hns : ¬(upperStr (strip s) = strOf "12AM" ∨
      upperStr (strip s) = strOf "12:00AM"))
    (hmem : strip s ∈ specColonStrs h m pm) :
    convert_time_format s = .ok (some (fmtHM (to24Hour h pm) m)) := by
  have hcolon : ':' ∈ strip s := specColonStrs_has_colon hmem
  have hsL : s ≠ strOf "LOCKED" := by
    intro hcon
    subst hcon
    rw [strip_LOCKED] at hcolon
    revert hcolon
    decide
  have hcont : (strip s).contains ':' = true := List.elem_iff.mpr hcolon
  obtain ⟨hs, hh, ms, hmm, ps, hp, heq⟩ := specColonStrs_elim hmem
  unfold convert_time_format
  rw [if_neg hsL, if_neg hns, if_pos hcont, heq,
    parseColonTime_complete h m pm hs ms ps hh hmm hp]

theorem convert_nocolon (s : Str) (h : Nat) (pm : Bool)
    (hns : ¬(upperStr (strip s) = strOf "12AM" ∨
      upperStr (strip s) = strOf "12:00AM"))
    (hmem : strip s ∈ specNoColonStrs h pm) :
    convert_time_format s = .ok (some (fmtHM (to24Hour h pm) 0)) := by
  have hsL : s ≠ strOf "LOCKED" := by
    intro hcon
    subst hcon
    have := specNoColonStrs_length hmem
    rw [strip_LOCKED] at this
    revert this
    decide
  have hnc : (strip s).contains ':' = false := by
    cases hcont : (strip s).contains ':' with
    | false => rfl
    | true =>
      exact absurd (List.elem_iff.mp hcont) (specNoColonStrs_no_colon hmem)
  obtain ⟨hs, hh, ps, hp, heq⟩ := specNoColonStrs_elim hmem
  unfold convert_time_format
  rw [if_neg hsL, if_neg hns, hnc, if_neg (by decide), heq,
    parseNoColonTime_complete h pm hs ps hh hp]

theorem convert_raise (s : Str)
    (hsL : s ≠ strOf "LOCKED")
    (hns : ¬(upperStr (strip s) = strOf "12AM" ∨
      upperStr (strip s) = strOf "12:00AM"))
    (hnm : ∀ h ∈ List.range 13, ∀ m ∈ List.range 60, ∀ pm ∈ [false, true],
      strip s ∉ specColonStrs h m pm ∧ strip s ∉ specNoColonStrs h pm) :
    ∃ e, convert_time_format s = .error e := by
  unfold convert_time_format
  rw [if_neg hsL, if_neg hns]
  by_cases hc : (strip s).contains ':' = true
  · rw [hc, if_pos rfl]
    cases hpct : parseColonTime (strip s) with
    | some v =>
      rcases v with ⟨h, m, pm⟩
      obtain ⟨hb1, hb2, hb3, hmem⟩ := parseColonTime_sound _ _ _ _ hpct
      exact absurd hmem ((hnm h (List.mem_range.mpr (by omega)) m
        (List.mem_range.mpr (by omega)) pm (by cases pm <;> simp)).1)
    | none => exact ⟨strip s, rfl⟩
  · rw [Bool.not_eq_true] at hc
    rw [hc, if_neg (by decide)]
    cases hpnt : parseNoColonTime (strip s) with
    | some v =>
      rcases v with ⟨h, pm⟩
      obtain ⟨hb1, hb2, hmem⟩ := parseNoColonTime_sound _ _ _ hpnt
      exact absurd hmem ((hnm h (List.mem_range.mpr (by omega)) 0
        (List.mem_range.mpr (by omega)) pm (by cases pm <;> simp)).2)
    | none => exact ⟨strip s, rfl⟩

/-- C6. `convert_time_format` returns `"23:59"` for `"12AM"` and
`"12:00AM"` — and in general for every string whose stripped, upper-cased
form is one of those — returns `"07:30"` for `"7:30AM"`, returns absent
for `"LOCKED"`, converts every string matching `H:MM AM/PM`
(`specColonStrs`) or `H AM/PM` (`specNoColonStrs`) to its 24-hour form,
and raises on every other string. -/
theorem convert_time_format_spec :
    convert_time_format (strOf "LOCKED") = .ok none ∧
    convert_time_format (strOf "12AM") = .ok (some (strOf "23:59")) ∧
    convert_time_format (strOf "12:00AM") = .ok (some (strOf "23:59")) ∧
    convert_time_format (strOf "7:30AM") = .ok (some (strOf "07:30")) ∧
    (∀ s : Str, upperStr (strip s) = strOf "12AM" ∨
        upperStr (strip s) = strOf "12:00AM" →
      convert_time_format s = .ok (some (strOf "23:59"))) ∧
    (∀ (s : Str) (h m : Nat) (pm : Bool),
      ¬(upperStr (strip s) = strOf "12AM" ∨
        upperStr (strip s) = strOf "12:00AM") →
      strip s ∈ specColonStrs h m pm →
      convert_time_format s = .ok (some (fmtHM (to24Hour h pm) m))) ∧
    (∀ (s : Str) (h : Nat) (pm : Bool),
      ¬(upperStr (strip s) = strOf "12AM" ∨
        upperStr (strip s) = strOf "12:00AM") →
      strip s ∈ specNoColonStrs h pm →
      convert_time_format s = .ok (some (fmtHM (to24Hour h pm) 0))) ∧
    (∀ s : Str, s ≠ strOf "LOCKED" →
      ¬(upperStr (strip s) = strOf "12AM" ∨
        upperStr (strip s) = strOf "12:00AM") →
      (∀ h ∈ List.range 13, ∀ m ∈ List.range 60, ∀ pm ∈ [false, true],
        strip s ∉ specColonStrs h m pm ∧ strip s ∉ specNoColonStrs h pm) →
      ∃ e, convert_time_format s = .error e) :=
  ⟨rfl, rfl, rfl, rfl, convert_special, convert_colon, convert_nocolon,
    convert_raise⟩

/-- Witness for C6: the 12AM rule fires on `" 12am "` after
stripping/upper-casing, `"10:05pm"` converts to `"22:05"`, `"9PM"`
converts to `"21:00"`, and `"noon"` — matching neither format — raises. -/
theorem convert_time_format_spec_witness :
    convert_time_format (strOf " 12am ") = .ok (some (strOf "23:59")) ∧
    convert_time_format (strOf "10:05pm") = .ok (some (strOf "22:05")) ∧
    convert_time_format (strOf "9PM") = .ok (some (strOf "21:00")) ∧
    ∃ e, convert_time_format (strOf "noon") = .error e := by
  obtain ⟨-, -, -, -, hspec, hcolon, hnocolon, hraise⟩ := convert_time_format_spec
  refine ⟨hspec _ (by decide), ?_, ?_, ?_⟩
  · have h2 := hcolon (strOf "10:05pm") 10 5 true (by decide) (by decide)
    exact h2.trans (congrArg
      (fun x => (Except.ok (some x) : Except Str (Option Str))) (by decide))
  · have h3 := hnocolon (strOf "9PM") 9 true (by decide) (by decide)
    exact h3.trans (congrArg
      (fun x => (Except.ok (some x) : Except Str (Option Str))) (by decide))
  · exact hraise (strOf "noon") (by decide) (by decide) (by decide)

theorem rsplitHyphen_none (s : Str) (h : '-' ∉ s) : rsplitHyphen s = none := by
  induction s with
  | nil => rfl
  | cons c cs ih =>
    simp only [rsplitHyphen]
    rw [ih (fun hc => h (List.mem_cons_of_mem _ hc))]
    dsimp only
    rw [if_neg (by intro hc; subst hc; exact h (List.mem_cons_self _ _))]

theorem rsplitHyphen_split (a b : Str) (h : '-' ∉ b) :
    rsplitHyphen (a ++ '-' :: b) = some (a, b) := by
  induction a with
  | nil =>
    simp only [List.nil_append, rsplitHyphen]
    rw [rsplitHyphen_none b h]
    dsimp only
    rw [if_pos trivial]
  | cons c cs ih =>
    simp only [List.cons_append, rsplitHyphen]
    have ih2 : rsplitHyphen (cs.append ('-' :: b)) = some (cs, b) := ih
    rw [ih2]

/-- C5. `parse_building_hours` on the day-group map
`{M-TH: 7:30AM-10:00PM, F: 7:30AM-6:00PM, SAT: LOCKED, SUN: LOCKED}`
yields monday-thursday open 07:30 / close 22:00, friday 07:30/18:00 and
saturday & sunday null/null; in general an entry whose key is not a
known day group is skipped without error, `"LOCKED"` maps every day of
its group to open = close = null, and a non-LOCKED range is split on its
last hyphen with each side passed through the clock-time converter. -/
theorem parse_building_hours_spec :
    parse_building_hours
        [(strOf "M-TH", strOf "7:30AM-10:00PM"),
         (strOf "F", strOf "7:30AM-6:00PM"),
         (strOf "SAT", strOf "LOCKED"), (strOf "SUN", strOf "LOCKED")] =
      .ok [(strOf "monday", ⟨some (strOf "07:30"), some (strOf "22:00")⟩),
           (strOf "tuesday", ⟨some (strOf "07:30"), some (strOf "22:00")⟩),
           (strOf "wednesday", ⟨some (strOf "07:30"), some (strOf "22:00")⟩),
           (strOf "thursday", ⟨some (strOf "07:30"), some (strOf "22:00")⟩),
           (strOf "friday", ⟨some (strOf "07:30"), some (strOf "18:00")⟩),
           (strOf "saturday", ⟨none, none⟩),
           (strOf "sunday", ⟨none, none⟩)] ∧
    (∀ (fh : List (Str × DayHours)) (k v : Str) (rest : List (Str × Str)),
      k ∉ days_mapping.map (fun p => p.1) →
      parseHoursGo fh ((k, v) :: rest) = parseHoursGo fh rest) ∧
    (∀ (g : Str) (days : List Str), (g, days) ∈ days_mapping →
      parse_building_hours [(g, strOf "LOCKED")] =
        .ok (days.map (fun d => (d, (⟨none, none⟩ : DayHours))))) ∧
    (∀ a b : Str, '-' ∉ b →
      parse_building_hours [(strOf "F", a ++ '-' :: b)] =
        (match convert_time_format (strip a) with
         | .error e => .error e
         | .ok o =>
           match convert_time_format (strip b) with
           | .error e => .error e
           | .ok c => .ok [(strOf "friday", (⟨o, c⟩ : DayHours))])) := by
  refine ⟨by rfl, ?_, ?_, ?_⟩
  · intro fh k v rest hk
    simp only [days_mapping, List.map_cons, List.map_nil, List.mem_cons,
      List.not_mem_nil, or_false, not_or] at hk
    obtain ⟨h1, h2, h3, h4⟩ := hk
    have hlk : List.lookup k days_mapping = none := by
      have e1 : (k == strOf "M-TH") = false := beq_eq_false_iff_ne.mpr h1
      have e2 : (k == strOf "F") = false := beq_eq_false_iff_ne.mpr h2
      have e3 : (k == strOf "SAT") = false := beq_eq_false_iff_ne.mpr h3
      have e4 : (k == strOf "SUN") = false := beq_eq_false_iff_ne.mpr h4
      simp [List.lookup, days_mapping, e1, e2, e3, e4]
    simp only [parseHoursGo, processHoursEntry, hlk]
  · intro g days hg
    fin_cases hg <;> rfl
  · intro a b hb
    have hvL : a ++ '-' :: b ≠ strOf "LOCKED" := by
      intro hcon
      have hmem : '-' ∈ strOf "LOCKED" := by
        rw [← hcon]
        exact List.mem_append_right _ (List.mem_cons_self _ _)
      revert hmem
      decide
    show parseHoursGo [] [(strOf "F", a ++ '-' :: b)] = _
    simp only [parseHoursGo, processHoursEntry,
      show List.lookup (strOf "F") days_mapping =
        some [strOf "friday"] from rfl]
    rw [if_neg hvL, rsplitHyphen_split a b hb]
    dsimp only
    cases convert_time_format (strip a) with
    | error e => rfl
    | ok o =>
      dsimp only
      cases convert_time_format (strip b) with
      | error e => rfl
      | ok c => rfl

theorem parse_building_hours_spec_witness :
    parseHoursGo [] [(strOf "LUNCH", strOf "8AM-9PM")] = .ok [] ∧
    parse_building_hours [(strOf "SAT", strOf "LOCKED")] =
      .ok [(strOf "saturday", (⟨none, none⟩ : DayHours))] ∧
    parse_building_hours
        [(strOf "F", strOf "7:30AM" ++ '-' :: strOf "6:00PM")] =
      .ok [(strOf "friday",
        (⟨some (strOf "07:30"), some (strOf "18:00")⟩ : DayHours))] := by
  obtain ⟨-, hskip, hlocked, hsplit⟩ := parse_building_hours_spec
  refine ⟨?_, ?_, ?_⟩
  · exact (hskip [] (strOf "LUNCH") (strOf "8AM-9PM") [] (by decide)).trans rfl
  · exact (hlocked (strOf "SAT") [strOf "saturday"] (by decide)).trans rfl
  · exact (hsplit (strOf "7:30AM") (strOf "6:00PM") (by decide)).trans rfl

theorem validate_term_dates_ok_iff (sd ed : Str) :
    validate_term_dates sd ed = .ok () ↔
      ∃ s e, parseDate sd = some s ∧ parseDate ed = some e ∧ ¬ dateLE e s := by
  unfold validate_term_dates
  cases hs : parseDate sd with
  | none => simp
  | some s =>
    cases he : parseDate ed with
    | none => simp
    | some e =>
      dsimp only
      by_cases hle : dateLE e s
      · rw [if_pos hle]
        simp [hle]
      · rw [if_neg hle]
        simp [hle]

theorem validate_term_ok_iff (t : TermRecord) :
    validate_term t = .ok () ↔ ValidTermSpec t := by
  rcases t with ⟨hay, hterm, osd, oed, pot⟩
  unfold validate_term ValidTermSpec
  cases hay <;> cases hterm <;>
    rcases osd with - | sd <;> rcases oed with - | ed <;>
    try (refine ⟨fun hcon => Except.noConfusion hcon, ?_⟩
         rintro ⟨h1, h2, -, sd2, ed2, s2, e2, h5, h6, -, -, -⟩
         first
           | exact Bool.noConfusion h1
           | exact Bool.noConfusion h2
           | exact Option.noConfusion h5
           | exact Option.noConfusion h6)
  cases pot with
  | none =>
    dsimp only
    rw [validate_term_dates_ok_iff]
    constructor
    · rintro ⟨s, e, hs, he, hle⟩
      refine ⟨rfl, rfl, ?_, sd, ed, s, e, rfl, rfl, hs, he, hle⟩
      intro p hp
      cases hp
    · rintro ⟨-, -, -, sd2, ed2, s, e, hsd2, hed2, hs, he, hle⟩
      rw [Option.some.injEq] at hsd2 hed2
      subst hsd2; subst hed2
      exact ⟨s, e, hs, he, hle⟩
  | some p =>
    dsimp only
    by_cases hp : p = strOf "A" ∨ p = strOf "B"
    · rw [if_pos hp, validate_term_dates_ok_iff]
      constructor
      · rintro ⟨s, e, hs, he, hle⟩
        refine ⟨rfl, rfl, ?_, sd, ed, s, e, rfl, rfl, hs, he, hle⟩
        intro p2 hp2
        rw [Option.some.injEq] at hp2
        subst hp2
        exact hp
      · rintro ⟨-, -, -, sd2, ed2, s, e, hsd2, hed2, hs, he, hle⟩
        rw [Option.some.injEq] at hsd2 hed2
        subst hsd2; subst hed2
        exact ⟨s, e, hs, he, hle⟩
    · rw [if_neg hp]
      constructor
      · intro hcon; cases hcon
      · rintro ⟨-, -, hpot, -⟩
        exact absurd (hpot p rfl) hp

/-- C7. `validate_academic_terms_structure` raises exactly when some
term record is missing one of the required keys, or carries a present
`part_of_term` outside `{A, B}`, or has a start or end date that does
not parse as a valid `YYYY-MM-DD` date, or has an end date not strictly
after its start date; on a list whose every term satisfies all the
conditions it returns without error. -/
theorem validate_academic_terms_iff (terms : List TermRecord) :
    validate_academic_terms_structure terms = .ok () ↔
      ∀ t ∈ terms, ValidTermSpec t := by
  induction terms with
  | nil => simp [validate_academic_terms_structure]
  | cons t rest ih =>
    simp only [validate_academic_terms_structure]
    cases hv : validate_term t with
    | error e =>
      constructor
      · intro hcon; cases hcon
      · intro hall
        have := (validate_term_ok_iff t).mpr (hall t (List.mem_cons_self _ _))
        rw [hv] at this
        cases this
    | ok u =>
      cases u
      constructor
      · intro hrest t2 ht2
        rcases List.mem_cons.mp ht2 with rfl | ht2
        · exact (validate_term_ok_iff t2).mp hv
        · exact ih.mp hrest t2 ht2
      · intro hall
        exact ih.mpr (fun t2 ht2 => hall t2 (List.mem_cons_of_mem _ ht2))

theorem validate_academic_terms_iff_witness :
    validate_academic_terms_structure [egTerm] = .ok () := by
  apply (validate_academic_terms_iff [egTerm]).mpr
  intro t ht
  rcases List.mem_cons.mp ht with rfl | hcon
  · refine ⟨rfl, rfl, ?_, strOf "2026-01-12", strOf "2026-05-05",
      (2026, 1, 12), (2026, 5, 5), rfl, rfl, by decide, by decide, by decide⟩
    intro p hp
    rw [show egTerm.part_of_term = some (strOf "A") from rfl,
      Option.some.injEq] at hp
    subst hp
    exact Or.inl rfl
  · cases hcon
